import Mathlib

/-!
Shallow embedding of the chain synchronization engine
(`src/core/network/src/sync.rs`) and proofs about the claims of its
specification.

Machine integers (`NodeIndex`, block numbers, timestamps) are modelled as
`Nat`; hashes and justifications are opaque and modelled as `Nat`.
`HashMap`s are modelled as association lists whose list order stands for
the (arbitrary) iteration order of the Rust `HashMap`; `HashSet`s are
modelled as duplicate-free lists; `VecDeque`s as lists with the head at
the front.  External collaborators (the protocol context, the blockchain
client and the import queue) are modelled as a record of oracle functions
`Env` passed into every entry point; emitted messages and peer reports
are returned explicitly as a list of `Effect`s.
-/

namespace Sync

/-- `NodeIndex` of the networking layer. -/
abbrev PeerId := Nat

/-- Opaque block hash (`B::Hash`). -/
abbrev Hash := Nat

/-- Opaque justification payload (`runtime_primitives::Justification`). -/
abbrev Justification := Nat

/-- `std::time::Instant`, in seconds since an arbitrary origin. -/
abbrev Instant := Nat

-- Constants of sync.rs.
def MAX_BLOCKS_TO_REQUEST : Nat := 128
def MAX_IMPORTING_BLOCKS : Nat := 2048
def MAJOR_SYNC_BLOCKS : Nat := 5
def JUSTIFICATION_RETRY_WAIT : Nat := 10
def ANNOUNCE_HISTORY_SIZE : Nat := 64
def MAX_UNKNOWN_FORK_DOWNLOAD_LEN : Nat := 32

/-- `message::BlockAttributes` bitset. -/
structure BlockAttributes where
  header : Bool
  body : Bool
  justification : Bool
deriving DecidableEq, Repr

/-- `message::FromBlock`. -/
inductive FromBlock where
  | hash (h : Hash)
  | number (n : Nat)
deriving DecidableEq, Repr

/-- `message::Direction`. -/
inductive Direction where
  | ascending
  | descending
deriving DecidableEq, Repr

/-- `message::generic::BlockRequest` (fields the engine sets). -/
structure BlockRequest where
  id : Nat
  fields : BlockAttributes
  fromBlock : FromBlock
  toBlock : Option Hash
  direction : Direction
  max : Option Nat
deriving DecidableEq, Repr

/-- A block header: `(number, parent_hash)`. -/
structure Header where
  parentHash : Hash
  number : Nat
deriving DecidableEq, Repr

/-- One entry of a `message::BlockResponse` (`message::generic::BlockData`). -/
structure BlockData where
  hash : Hash
  header : Option Header
  body : Option Nat
  justification : Option Justification
deriving DecidableEq, Repr

/-- `consensus::import_queue::IncomingBlock`. -/
structure IncomingBlock where
  hash : Hash
  header : Option Header
  body : Option Nat
  justification : Option Justification
  origin : Option PeerId
deriving DecidableEq, Repr

/-- `consensus::BlockOrigin` (the variants the engine emits). -/
inductive BlockOrigin where
  | networkBroadcast
  | networkInitialSync
deriving DecidableEq, Repr

/-- `network_libp2p::Severity` (reason strings dropped). -/
inductive Severity where
  | bad
  | useless
deriving DecidableEq, Repr

/-- An externally observable action of the engine: a message sent through
the protocol context or a peer report. -/
inductive Effect where
  | sendMessage (who : PeerId) (request : BlockRequest)
  | reportPeer (who : PeerId) (sev : Severity)
deriving DecidableEq, Repr

/-- `client::BlockStatus`. -/
inductive BlockStatus where
  | knownBad
  | unknown
  | queued
  | inChain
deriving DecidableEq, Repr

/-- The external collaborators of one entry-point call: the import queue,
the blockchain client and the current time.  `Except Unit` models the
fallible client calls (`ClientError` is opaque). -/
structure Env where
  importingCount : Nat
  importJustification : Hash → Nat → Justification → Bool
  isImportingBlock : Hash → Bool
  clientBlockHash : Nat → Except Unit (Option Hash)
  clientBlockStatus : Hash → Except Unit BlockStatus
  now : Instant

/-- `fn block_status` (bottom of sync.rs): block status taking the import
queue into account. -/
def blockStatus (env : Env) (h : Hash) : Except Unit BlockStatus :=
  if env.isImportingBlock h then Except.ok BlockStatus.queued
  else env.clientBlockStatus h

/-- `PeerSyncState`. -/
inductive PeerSyncState where
  | ancestorSearch (n : Nat)
  | available
  | downloadingNew (n : Nat)
  | downloadingStale (h : Hash)
  | downloadingJustification (h : Hash)
deriving DecidableEq, Repr

/-- `PeerSync`. -/
structure PeerSync where
  commonNumber : Nat
  bestHash : Hash
  bestNumber : Nat
  state : PeerSyncState
  recentlyAnnounced : List Hash
deriving DecidableEq, Repr

/-- `PendingJustification`: the `(hash, number)` key of a request. -/
abbrev Req := Hash × Nat

section AssocList

variable {α β : Type} [DecidableEq α]

/-- Association-list lookup (model of `HashMap::get`). -/
def lookupA : List (α × β) → α → Option β
  | [], _ => none
  | e :: t, a => if e.1 = a then some e.2 else lookupA t a

/-- Association-list insert-or-replace (model of `HashMap::insert`). -/
def insertA : List (α × β) → α → β → List (α × β)
  | [], a, b => [(a, b)]
  | e :: t, a, b => if e.1 = a then (a, b) :: t else e :: insertA t a b

/-- Association-list removal (model of `HashMap::remove`). -/
def eraseA (l : List (α × β)) (a : α) : List (α × β) :=
  l.filter (fun e => decide (e.1 ≠ a))

/-- Map the value stored at one key (model of `HashMap::get_mut`). -/
def updateA : List (α × β) → α → (β → β) → List (α × β)
  | [], _, _ => []
  | e :: t, a, f => if e.1 = a then (e.1, f e.2) :: t else e :: updateA t a f

end AssocList

/-- `PendingJustifications`. -/
structure PendingJustifications where
  justifications : List Req
  pendingRequests : List Req
  peerRequests : List (PeerId × Req)
  previousRequests : List (Req × List (PeerId × Instant))
deriving DecidableEq, Repr

namespace PendingJustifications

/-- `PendingJustifications::new`. -/
def new : PendingJustifications :=
  { justifications := [], pendingRequests := [], peerRequests := [],
    previousRequests := [] }

/-- The block request emitted for a justification fetch:
fields = JUSTIFICATION, from = Hash, max = 1, ascending. -/
def justificationRequest (h : Hash) : BlockRequest :=
  { id := 0
    fields := { header := false, body := false, justification := true }
    fromBlock := FromBlock.hash h
    toBlock := none
    direction := Direction.ascending
    max := some 1 }

/-- One rotation pass of `dispatch`'s peer deque: pop peers from the
front, pushing ineligible ones to the back, until an eligible peer is
found (returning it together with the rotated remaining deque) or the
full rotation completes without one (`none`; the deque is then back in
its starting order).  The accumulator holds the peers already pushed to
the back, most recent first. -/
def rotFind (f : PeerId × Nat → Bool) :
    List (PeerId × Nat) → List (PeerId × Nat) →
    Option ((PeerId × Nat) × List (PeerId × Nat))
  | [], _ => none
  | x :: xs, acc =>
      if f x then some (x, xs ++ acc.reverse) else rotFind f xs (x :: acc)

/-- The iteration of `dispatch`'s main loop, restructured by
request-consideration periods: for each queue head in turn, rotate the
candidate deque looking for an eligible peer.  Finding one assigns the
request and continues with the shrunken deque; completing a full
rotation without one moves the request to the `unhandled` list (the
deque order is then unchanged); an empty deque breaks the loop, leaving
the remaining queue untouched.  Returns
`(assignments, remaining queue, unhandled)`. -/
def dispatchLoop (elig : Req → PeerId × Nat → Bool) :
    List Req → List (PeerId × Nat) →
    List (PeerId × Req) × List Req × List Req
  | [], _ => ([], [], [])
  | r :: rs, d =>
      if d.isEmpty then ([], r :: rs, [])
      else
        match rotFind (elig r) d [] with
        | none =>
            let t := dispatchLoop elig rs d
            (t.1, t.2.1, r :: t.2.2)
        | some (p, d') =>
            let t := dispatchLoop elig rs d'
            ((p.1, r) :: t.1, t.2.1, t.2.2)

/-- The purge at the top of `dispatch`: drop history entries whose age
reached `JUSTIFICATION_RETRY_WAIT` (`retain(elapsed < WAIT)`). -/
def purge (prev : List (Req × List (PeerId × Instant))) (now : Instant) :
    List (Req × List (PeerId × Instant)) :=
  prev.map (fun e =>
    (e.1, e.2.filter (fun pt => decide (now - pt.2 < JUSTIFICATION_RETRY_WAIT))))

/-- Peer eligibility for a request inside the `dispatch` loop: the peer
has synced past the requested number and has no (young) entry in the
purged history of the request. -/
def eligible (prev : List (Req × List (PeerId × Instant))) (r : Req)
    (pb : PeerId × Nat) : Bool :=
  decide (r.2 ≤ pb.2) &&
    !(((lookupA prev r).getD []).any (fun i => decide (i.1 = pb.1)))

/-- The candidate deque of `dispatch`: peers whose state is `Available`
and which have no in-flight justification request, in map-iteration
order, paired with their best number. -/
def candidates (pj : PendingJustifications)
    (peers : List (PeerId × PeerSync)) : List (PeerId × Nat) :=
  peers.filterMap (fun pp =>
    if pp.2.state = PeerSyncState.available ∧ lookupA pj.peerRequests pp.1 = none
    then some (pp.1, pp.2.bestNumber) else none)

/-- Record the loop's assignments in the in-flight map
(`self.peer_requests.insert(peer, request)`, in loop order). -/
def recordAssignments : List (PeerId × Req) → List (PeerId × Req) → List (PeerId × Req)
  | [], m => m
  | a :: t, m => recordAssignments t (insertA m a.1 a.2)

/-- Apply the loop's peer-state transitions
(`peers.get_mut(&peer).state = DownloadingJustification(request.0)`,
in loop order). -/
def applyAssignments : List (PeerId × Req) → List (PeerId × PeerSync) → List (PeerId × PeerSync)
  | [], ps => ps
  | a :: t, ps =>
      applyAssignments t (updateA ps a.1 (fun p =>
        { p with state := PeerSyncState.downloadingJustification a.2.1 }))

/-- `PendingJustifications::dispatch`.  Returns the updated structure,
the updated peers map, and the emitted messages. -/
def dispatch (pj : PendingJustifications) (peers : List (PeerId × PeerSync))
    (now : Instant) :
    PendingJustifications × List (PeerId × PeerSync) × List Effect :=
  if pj.pendingRequests.isEmpty then (pj, peers, [])
  else
    let prev := purge pj.previousRequests now
    let cand := candidates pj peers
    let t := dispatchLoop (eligible prev) pj.pendingRequests cand
    let assignments := t.1
    let pj' : PendingJustifications :=
      { justifications := pj.justifications
        pendingRequests := t.2.1 ++ t.2.2
        peerRequests := recordAssignments assignments pj.peerRequests
        previousRequests := prev }
    let peers' := applyAssignments assignments peers
    let msgs := assignments.map (fun a =>
      Effect.sendMessage a.1 (justificationRequest a.2.1))
    (pj', peers', msgs)

/-- `PendingJustifications::queue_request`. -/
def queueRequest (pj : PendingJustifications) (r : Req) : PendingJustifications :=
  if r ∈ pj.justifications then pj
  else
    { pj with justifications := pj.justifications ++ [r]
              pendingRequests := pj.pendingRequests ++ [r] }

/-- `PendingJustifications::peer_disconnected`. -/
def peerDisconnected (pj : PendingJustifications) (who : PeerId) :
    PendingJustifications :=
  match lookupA pj.peerRequests who with
  | some r =>
      { pj with peerRequests := eraseA pj.peerRequests who
                pendingRequests := r :: pj.pendingRequests }
  | none => pj

/-- `PendingJustifications::on_response`. -/
def onResponse (pj : PendingJustifications) (who : PeerId)
    (justification : Option Justification) (env : Env) :
    PendingJustifications × List Effect :=
  match lookupA pj.peerRequests who with
  | none => (pj, [])
  | some request =>
      let pj1 := { pj with peerRequests := eraseA pj.peerRequests who }
      match justification with
      | some j =>
          if env.importJustification request.1 request.2 j then
            ({ pj1 with justifications := pj1.justifications.erase request
                        previousRequests := eraseA pj1.previousRequests request },
             [])
          else
            ({ pj1 with pendingRequests := request :: pj1.pendingRequests },
             [Effect.reportPeer who Severity.bad])
      | none =>
          let entry := (lookupA pj1.previousRequests request).getD []
          ({ pj1 with
              previousRequests :=
                insertA pj1.previousRequests request (entry ++ [(who, env.now)])
              pendingRequests := request :: pj1.pendingRequests },
           [])

/-- `PendingJustifications::collect_garbage`. -/
def collectGarbage (pj : PendingJustifications) (bestFinalized : Nat) :
    PendingJustifications :=
  { justifications := pj.justifications.filter (fun r => decide (bestFinalized < r.2))
    pendingRequests := pj.pendingRequests.filter (fun r => decide (bestFinalized < r.2))
    peerRequests := pj.peerRequests.filter (fun e => decide (bestFinalized < e.2.2))
    previousRequests :=
      pj.previousRequests.filter (fun e => decide (bestFinalized < e.1.2)) }

end PendingJustifications

/-- Modelled from the spec: the `BlockCollection` of
`src/core/network/src/blocks.rs`, which is not under `src/`.  Per the
spec it is "a mapping from `Number → (PeerId, Vec<Block>)` for downloaded
ranges not yet drained into the import queue, plus a reverse index
`PeerId → range-in-flight`". -/
structure BlockCollection where
  received : List (Nat × PeerId × List BlockData)
  peerRanges : List (PeerId × Nat × Nat)
deriving DecidableEq, Repr

namespace BlockCollection

/-- `BlockCollection::new`. -/
def new : BlockCollection := { received := [], peerRanges := [] }

/-- Modelled from the spec: a block number is unavailable for a new
download by `who` when it lies in another peer's in-flight range or is
already present in the collection. -/
def covered (bc : BlockCollection) (who : PeerId) (n : Nat) : Bool :=
  bc.peerRanges.any (fun e => decide (e.1 ≠ who ∧ e.2.1 ≤ n ∧ n < e.2.2)) ||
    bc.received.any (fun e => decide (e.1 ≤ n ∧ n < e.1 + e.2.2.length))

/-- Modelled from the spec: `needed_blocks(peer, max, peer_best, common)`
returns the lowest contiguous range of up to `max` numbers in
`(common, peer_best]` not already assigned to another in-flight download
and not already present in the collection, recording it as the peer's
in-flight range; `none` if nothing useful. -/
def neededBlocks (bc : BlockCollection) (who : PeerId) (maxBlocks : Nat)
    (peerBest common : Nat) : Option (Nat × Nat) × BlockCollection :=
  match ((List.range' (common + 1) (peerBest - common)).filter
      (fun n => !bc.covered who n)).head? with
  | none => (none, bc)
  | some start =>
      let len := ((List.range' start (min maxBlocks (peerBest + 1 - start))).takeWhile
        (fun n => !bc.covered who n)).length
      (some (start, start + len),
       { bc with peerRanges := insertA bc.peerRanges who (start, start + len) })

/-- Modelled from the spec: `insert(start_number, blocks, peer)` records
a downloaded range. -/
def insertBlocks (bc : BlockCollection) (start : Nat) (blocks : List BlockData)
    (who : PeerId) : BlockCollection :=
  { bc with received := insertA bc.received start (who, blocks) }

/-- Modelled from the spec: `clear_peer_download(peer)` releases the
peer's in-flight range. -/
def clearPeerDownload (bc : BlockCollection) (who : PeerId) : BlockCollection :=
  { bc with peerRanges := eraseA bc.peerRanges who }

/-- Modelled from the spec: the recursion of `drain`, walking contiguous
entries starting at `n`; the fuel is the number of stored entries, which
bounds the number of steps. -/
def drainGo : Nat → BlockCollection → Nat →
    List (PeerId × BlockData) × BlockCollection
  | 0, bc, _ => ([], bc)
  | fuel + 1, bc, n =>
      match lookupA bc.received n with
      | none => ([], bc)
      | some (who, blocks) =>
          let bc1 := { bc with received := eraseA bc.received n }
          let t := drainGo fuel bc1 (n + blocks.length)
          (blocks.map (fun b => (who, b)) ++ t.1, t.2)

/-- Modelled from the spec: `drain(from_number)` returns the longest
contiguous prefix starting at `from_number` and removes it from the
collection; the per-block origin is the peer that supplied the range. -/
def drain (bc : BlockCollection) (fromNumber : Nat) :
    List (PeerId × BlockData) × BlockCollection :=
  drainGo bc.received.length bc fromNumber

/-- Modelled from the spec: `clear()`. -/
def clearAll (bc : BlockCollection) : BlockCollection :=
  { bc with received := [], peerRanges := [] }

end BlockCollection

/-- `ChainSync`. -/
structure ChainSync where
  genesisHash : Hash
  peers : List (PeerId × PeerSync)
  blocks : BlockCollection
  bestQueuedNumber : Nat
  bestQueuedHash : Hash
  requiredBlockAttributes : BlockAttributes
  justifications : PendingJustifications
deriving DecidableEq, Repr

/-- `client::ClientInfo` (the fields the engine reads). -/
structure ClientInfo where
  genesisHash : Hash
  bestHash : Hash
  bestNumber : Nat
  bestQueuedHash : Option Hash
  bestQueuedNumber : Option Nat
deriving DecidableEq, Repr

namespace ChainSync

/-- `ChainSync::new`; `fullOrAuthority` models
`role.intersects(Roles::FULL | Roles::AUTHORITY)`. -/
def new (fullOrAuthority : Bool) (info : ClientInfo) : ChainSync :=
  { genesisHash := info.genesisHash
    peers := []
    blocks := BlockCollection.new
    bestQueuedHash := info.bestQueuedHash.getD info.bestHash
    bestQueuedNumber := info.bestQueuedNumber.getD info.bestNumber
    requiredBlockAttributes :=
      { header := true, body := fullOrAuthority, justification := true }
    justifications := PendingJustifications.new }

/-- `ChainSync::is_known`. -/
def isKnown (env : Env) (h : Hash) : Bool :=
  match blockStatus env h with
  | Except.ok s => decide (s ≠ BlockStatus.unknown)
  | Except.error _ => false

/-- `ChainSync::is_already_downloading`. -/
def isAlreadyDownloading (s : ChainSync) (h : Hash) : Bool :=
  s.peers.any (fun pp => decide (pp.2.state = PeerSyncState.downloadingStale h))

/-- `ChainSync::request_ancestry`: the ancestry block request
(fields HEADER|JUSTIFICATION, from Number, max 1, ascending). -/
def ancestryRequest (block : Nat) : BlockRequest :=
  { id := 0
    fields := { header := true, body := false, justification := true }
    fromBlock := FromBlock.number block
    toBlock := none
    direction := Direction.ascending
    max := some 1 }

/-- `ChainSync::download_new`. -/
def downloadNew (s : ChainSync) (env : Env) (who : PeerId) :
    ChainSync × List Effect :=
  match lookupA s.peers who with
  | none => (s, [])
  | some peer =>
      if MAX_IMPORTING_BLOCKS < env.importingCount then (s, [])
      else
        match peer.state with
        | PeerSyncState.available =>
            match s.blocks.neededBlocks who MAX_BLOCKS_TO_REQUEST
                peer.bestNumber peer.commonNumber with
            | (none, bc) => ({ s with blocks := bc }, [])
            | (some range, bc) =>
                ({ s with blocks := bc
                          peers := updateA s.peers who (fun p =>
                            { p with state := PeerSyncState.downloadingNew range.1 }) },
                 [Effect.sendMessage who
                    { id := 0
                      fields := s.requiredBlockAttributes
                      fromBlock := FromBlock.number range.1
                      toBlock := none
                      direction := Direction.ascending
                      max := some (range.2 - range.1) }])
        | _ => (s, [])

/-- `ChainSync::download_stale`. -/
def downloadStale (s : ChainSync) (who : PeerId) (h : Hash) :
    ChainSync × List Effect :=
  match lookupA s.peers who with
  | none => (s, [])
  | some peer =>
      match peer.state with
      | PeerSyncState.available =>
          ({ s with peers := updateA s.peers who (fun p =>
              { p with state := PeerSyncState.downloadingStale h }) },
           [Effect.sendMessage who
              { id := 0
                fields := s.requiredBlockAttributes
                fromBlock := FromBlock.hash h
                toBlock := none
                direction := Direction.ascending
                max := some 1 }])
      | _ => (s, [])

/-- `ChainSync::download_unknown_stale`. -/
def downloadUnknownStale (s : ChainSync) (who : PeerId) (h : Hash) :
    ChainSync × List Effect :=
  match lookupA s.peers who with
  | none => (s, [])
  | some peer =>
      match peer.state with
      | PeerSyncState.available =>
          ({ s with peers := updateA s.peers who (fun p =>
              { p with state := PeerSyncState.downloadingStale h }) },
           [Effect.sendMessage who
              { id := 0
                fields := s.requiredBlockAttributes
                fromBlock := FromBlock.hash h
                toBlock := none
                direction := Direction.descending
                max := some MAX_UNKNOWN_FORK_DOWNLOAD_LEN }])
      | _ => (s, [])

/-- The `for peer in peers { download_new(peer) }` loop of
`maintain_sync`, over a snapshot of the peer keys. -/
def downloadAll (env : Env) : List PeerId → ChainSync → ChainSync × List Effect
  | [], s => (s, [])
  | p :: rest, s =>
      let r := s.downloadNew env p
      let t := downloadAll env rest r.1
      (t.1, r.2 ++ t.2)

/-- `ChainSync::maintain_sync`: `download_new` for every connected peer
(key snapshot taken first), then dispatch pending justifications. -/
def maintainSync (s : ChainSync) (env : Env) : ChainSync × List Effect :=
  let step := downloadAll env (s.peers.map Prod.fst) s
  let d := step.1.justifications.dispatch step.1.peers env.now
  ({ step.1 with peers := d.2.1, justifications := d.1 }, step.2 ++ d.2.2)

/-- `ChainSync::tick`. -/
def tick (s : ChainSync) (env : Env) : ChainSync × List Effect :=
  let d := s.justifications.dispatch s.peers env.now
  ({ s with peers := d.2.1, justifications := d.1 }, d.2.2)

/-- `ChainSync::request_justification`. -/
def requestJustification (s : ChainSync) (h : Hash) (number : Nat) (env : Env) :
    ChainSync × List Effect :=
  let j := s.justifications.queueRequest (h, number)
  let d := j.dispatch s.peers env.now
  ({ s with peers := d.2.1, justifications := d.1 }, d.2.2)

/-- `ChainSync::block_finalized`. -/
def blockFinalized (s : ChainSync) (number : Nat) : ChainSync :=
  { s with justifications := s.justifications.collectGarbage number }

/-- `ChainSync::block_queued`. -/
def blockQueued (s : ChainSync) (h : Hash) (number : Nat) : ChainSync :=
  let s1 := if s.bestQueuedNumber < number then
      { s with bestQueuedNumber := number, bestQueuedHash := h }
    else s
  { s1 with peers := s1.peers.map (fun pp =>
      (pp.1,
        let p := pp.2
        let p := match p.state with
          | PeerSyncState.ancestorSearch _ => { p with state := PeerSyncState.available }
          | _ => p
        if number ≤ p.bestNumber then { p with commonNumber := number }
        else { p with commonNumber := p.bestNumber })) }

/-- A freshly inserted peer record (`recently_announced` defaults to
empty). -/
def freshPeer (common : Nat) (bestHash : Hash) (bestNumber : Nat)
    (st : PeerSyncState) : PeerSync :=
  { commonNumber := common
    bestHash := bestHash
    bestNumber := bestNumber
    state := st
    recentlyAnnounced := [] }

/-- `ChainSync::new_peer`; `info` is `protocol.peer_info(who)`. -/
def newPeer (s : ChainSync) (env : Env) (who : PeerId)
    (info : Option (Hash × Nat)) : ChainSync × List Effect :=
  match info with
  | none => (s, [])
  | some (bestHash, bestNumber) =>
      match blockStatus env bestHash with
      | Except.error _ => (s, [Effect.reportPeer who Severity.useless])
      | Except.ok BlockStatus.knownBad => (s, [Effect.reportPeer who Severity.bad])
      | Except.ok BlockStatus.unknown =>
          if bestNumber = 0 then (s, [Effect.reportPeer who Severity.bad])
          else if MAJOR_SYNC_BLOCKS < env.importingCount then
            ({ s with peers := insertA s.peers who
                          (freshPeer s.bestQueuedNumber bestHash bestNumber PeerSyncState.available) },
             [])
          else if 0 < s.bestQueuedNumber then
            let commonBest := min s.bestQueuedNumber bestNumber
            ({ s with peers := insertA s.peers who
                          (freshPeer 0 bestHash bestNumber (PeerSyncState.ancestorSearch commonBest)) },
             [Effect.sendMessage who (ancestryRequest commonBest)])
          else
            let s1 := { s with peers := insertA s.peers who
                                  (freshPeer 0 bestHash bestNumber PeerSyncState.available) }
            s1.downloadNew env who
      | Except.ok BlockStatus.queued | Except.ok BlockStatus.inChain =>
          ({ s with peers := insertA s.peers who
                        (freshPeer bestNumber bestHash bestNumber PeerSyncState.available) }, [])

/-- The response normalization at the top of `on_block_data`: a
descending response is reversed so that block lists are ascending. -/
def responseBlocks (request : BlockRequest) (response : List BlockData) :
    List BlockData :=
  if request.direction = Direction.descending then response.reverse else response

/-- The common tail of `on_block_data`: classify the batch origin by the
first block, advance the best-queued tip by the last block, run
`maintain_sync`, and return the batch. -/
def onBlockDataTail (s : ChainSync) (env : Env)
    (newBlocks : List IncomingBlock) :
    ChainSync × List Effect × Option (BlockOrigin × List IncomingBlock) :=
  let isRecent := match newBlocks.head? with
    | some b => s.peers.any (fun pp => pp.2.recentlyAnnounced.contains b.hash)
    | none => false
  let origin := if isRecent then BlockOrigin.networkBroadcast
    else BlockOrigin.networkInitialSync
  let s1 := match newBlocks.getLast? with
    | some b =>
        match b.header with
        | some hd => s.blockQueued b.hash hd.number
        | none => s
    | none => s
  let m := s1.maintainSync env
  (m.1, m.2, some (origin, newBlocks))

/-- `ChainSync::on_block_data`.  The third component is the returned
`Option<(BlockOrigin, Vec<IncomingBlock>)>`. -/
def onBlockData (s : ChainSync) (env : Env) (who : PeerId)
    (request : BlockRequest) (response : List BlockData) :
    ChainSync × List Effect × Option (BlockOrigin × List IncomingBlock) :=
  let blocks := responseBlocks request response
  match lookupA s.peers who with
  | none => onBlockDataTail s env []
  | some peer =>
      match peer.state with
      | PeerSyncState.downloadingNew startBlock =>
          let s1 := { s with
            blocks := s.blocks.clearPeerDownload who
            peers := updateA s.peers who (fun p =>
              { p with state := PeerSyncState.available }) }
          let bc := s1.blocks.insertBlocks startBlock blocks who
          let dr := bc.drain (s1.bestQueuedNumber + 1)
          let s2 := { s1 with blocks := dr.2 }
          onBlockDataTail s2 env (dr.1.map (fun ob =>
            { hash := ob.2.hash
              header := ob.2.header
              body := ob.2.body
              justification := ob.2.justification
              origin := some ob.1 }))
      | PeerSyncState.downloadingStale _ =>
          let s1 := { s with peers := updateA s.peers who (fun p =>
            { p with state := PeerSyncState.available }) }
          onBlockDataTail s1 env (blocks.map (fun b =>
            { hash := b.hash
              header := b.header
              body := b.body
              justification := b.justification
              origin := some who }))
      | PeerSyncState.ancestorSearch n =>
          match blocks.head? with
          | some block =>
              let cont : ChainSync × List Effect × Option (BlockOrigin × List IncomingBlock) :=
                ({ s with peers := updateA s.peers who (fun p =>
                    { p with state := PeerSyncState.ancestorSearch (n - 1) }) },
                 [Effect.sendMessage who (ancestryRequest (n - 1))], none)
              let genesisMismatch :
                  ChainSync × List Effect × Option (BlockOrigin × List IncomingBlock) :=
                (s, [Effect.reportPeer who Severity.bad], none)
              match env.clientBlockHash n with
              | Except.ok (some blockHash) =>
                  if blockHash = block.hash then
                    let s1 := { s with peers := updateA s.peers who (fun p =>
                      { p with
                          commonNumber := if p.commonNumber < n then n else p.commonNumber
                          state := PeerSyncState.available }) }
                    onBlockDataTail s1 env []
                  else if 0 < n then cont else genesisMismatch
              | Except.ok none =>
                  if 0 < n then cont else genesisMismatch
              | Except.error _ =>
                  (s, [Effect.reportPeer who Severity.useless], none)
          | none => (s, [Effect.reportPeer who Severity.bad], none)
      | _ => onBlockDataTail s env []

/-- `ChainSync::on_block_justification_data`. -/
def onBlockJustificationData (s : ChainSync) (env : Env) (who : PeerId)
    (response : List BlockData) : ChainSync × List Effect :=
  match lookupA s.peers who with
  | none => s.maintainSync env
  | some peer =>
      match peer.state with
      | PeerSyncState.downloadingJustification h =>
          let s1 := { s with peers := updateA s.peers who (fun p =>
            { p with state := PeerSyncState.available }) }
          match response.head? with
          | some b =>
              if h ≠ b.hash then (s1, [Effect.reportPeer who Severity.bad])
              else
                let r := s1.justifications.onResponse who b.justification env
                let s2 := { s1 with justifications := r.1 }
                let m := s2.maintainSync env
                (m.1, r.2 ++ m.2)
          | none => (s1, [Effect.reportPeer who Severity.useless])
      | _ => s.maintainSync env

/-- The `while peer.recently_announced.len() >= ANNOUNCE_HISTORY_SIZE
{ pop_front }` loop of `on_block_announce`. -/
def trimAnnounced (l : List Hash) : List Hash :=
  if h : ANNOUNCE_HISTORY_SIZE ≤ l.length then
    trimAnnounced l.tail
  else l
termination_by l.length
decreasing_by
  cases l with
  | nil => simp [ANNOUNCE_HISTORY_SIZE] at h
  | cons a t => simp

/-- The download decision at the end of `on_block_announce`: classify
the announced block as unknown stale fork, stale, or new, or do nothing
when it is known or already being downloaded. -/
def announceDecision (s1 : ChainSync) (env : Env) (who : PeerId) (h : Hash)
    (header : Header) (known knownParent : Bool) : ChainSync × List Effect :=
  if !(known || s1.isAlreadyDownloading h) then
    if header.number ≤ s1.bestQueuedNumber then
      if !(knownParent || s1.isAlreadyDownloading header.parentHash) then
        s1.downloadUnknownStale who h
      else s1.downloadStale who h
    else s1.downloadNew env who
  else (s1, [])

/-- `ChainSync::on_block_announce`. -/
def onBlockAnnounce (s : ChainSync) (env : Env) (who : PeerId) (h : Hash)
    (header : Header) : ChainSync × List Effect :=
  let number := header.number
  if number ≤ 0 then (s, [])
  else
    let knownParent := isKnown env header.parentHash
    let known := isKnown env h
    match lookupA s.peers who with
    | none => (s, [])
    | some peer0 =>
        let peer1 := { peer0 with
          recentlyAnnounced := trimAnnounced peer0.recentlyAnnounced ++ [h] }
        let peer2 := if peer1.bestNumber < number then
            { peer1 with bestNumber := number, bestHash := h }
          else peer1
        match peer2.state with
        | PeerSyncState.ancestorSearch _ =>
            ({ s with peers := insertA s.peers who peer2 }, [])
        | _ =>
            let peer3 :=
              if header.parentHash = s.bestQueuedHash ∨ knownParent then
                { peer2 with commonNumber := number - 1 }
              else if known then { peer2 with commonNumber := number }
              else peer2
            let s1 := { s with peers := insertA s.peers who peer3 }
            announceDecision s1 env who h header known knownParent

/-- `ChainSync::peer_disconnected`. -/
def peerDisconnected (s : ChainSync) (env : Env) (who : PeerId) :
    ChainSync × List Effect :=
  let s1 := { s with
    blocks := s.blocks.clearPeerDownload who
    peers := eraseA s.peers who
    justifications := s.justifications.peerDisconnected who }
  s1.maintainSync env

/-- The `for id in ids { self.new_peer(protocol, id) }` loop at the end of
`ChainSync::restart`; `peerInfo` models `protocol.peer_info(who)`. -/
def restartGo (env : Env) (peerInfo : PeerId → Option (Hash × Nat)) :
    ChainSync → List PeerId → ChainSync × List Effect
  | s, [] => (s, [])
  | s, id :: ids =>
      let r := s.newPeer env id (peerInfo id)
      let t := restartGo env peerInfo r.1 ids
      (t.1, r.2 ++ t.2)

/-- `ChainSync::restart`.  `info` models `protocol.client().info()` and
`peerInfo` models `protocol.peer_info`; `self.import_queue.clear()` is a
call into the external import queue and leaves the engine state itself
untouched.  The peer map is drained to `ids` and every id is re-run
through `new_peer`; `self.justifications` is not touched. -/
def restart (s : ChainSync) (env : Env) (info : Except Unit ClientInfo)
    (peerInfo : PeerId → Option (Hash × Nat)) : ChainSync × List Effect :=
  let s1 := { s with blocks := s.blocks.clearAll }
  let s2 := match info with
    | Except.ok i =>
        { s1 with
            bestQueuedHash := i.bestQueuedHash.getD i.bestHash
            bestQueuedNumber := i.bestQueuedNumber.getD i.bestNumber }
    | Except.error _ =>
        { s1 with
            bestQueuedHash := s.genesisHash
            bestQueuedNumber := 0 }
  let ids := s2.peers.map Prod.fst
  restartGo env peerInfo { s2 with peers := [] } ids

/-- `ChainSync::clear`: clears the block collection and the peer map but
not `self.justifications`. -/
def clear (s : ChainSync) : ChainSync :=
  { s with
      blocks := s.blocks.clearAll
      peers := [] }

end ChainSync

/-! ### Stated invariants and concrete fixtures -/

/-- The justification-side single-outstanding-request invariant of the
spec: the peer keys are unique (`HashMap` keys), and every in-flight
entry of `peer_requests` belongs to a connected peer whose state is
`DownloadingJustification` of the request's hash. -/
def JustInvariant (s : ChainSync) : Prop :=
  (s.peers.map Prod.fst).Nodup ∧
  ∀ e ∈ s.justifications.peerRequests,
    (lookupA s.peers e.1).map PeerSync.state =
      some (PeerSyncState.downloadingJustification e.2.1)

instance (s : ChainSync) : Decidable (JustInvariant s) :=
  inferInstanceAs (Decidable ((s.peers.map Prod.fst).Nodup ∧
    ∀ e ∈ s.justifications.peerRequests,
      (lookupA s.peers e.1).map PeerSync.state =
        some (PeerSyncState.downloadingJustification e.2.1)))

/-- The ancestor-search side of the per-peer number invariant: an
ancestor search never runs above the peer's best number. -/
def stateNumOk (p : PeerSync) : Bool :=
  match p.state with
  | PeerSyncState.ancestorSearch n => decide (n ≤ p.bestNumber)
  | _ => true

/-- The per-peer number invariant of the spec: `common_number ≤
best_number`, together with `stateNumOk`. -/
def peerNumOk (p : PeerSync) : Prop :=
  p.commonNumber ≤ p.bestNumber ∧ stateNumOk p = true

instance (p : PeerSync) : Decidable (peerNumOk p) :=
  inferInstanceAs (Decidable (p.commonNumber ≤ p.bestNumber ∧ stateNumOk p = true))

/-- `peerNumOk` for every connected peer. -/
def PeerNumInv (s : ChainSync) : Prop := ∀ e ∈ s.peers, peerNumOk e.2

instance (s : ChainSync) : Decidable (PeerNumInv s) :=
  inferInstanceAs (Decidable (∀ e ∈ s.peers, peerNumOk e.2))

/-- A justification response is well-formed for the receiving peer: if
the peer is downloading a justification for hash `h`, the response is
non-empty and its first block carries `h`.  (On any other peer state the
response content is irrelevant.) -/
def goodJustResponse (s : ChainSync) (who : PeerId)
    (response : List BlockData) : Bool :=
  match lookupA s.peers who with
  | some ps =>
      match ps.state with
      | PeerSyncState.downloadingJustification h =>
          match response.head? with
          | some b => decide (h = b.hash)
          | none => false
      | _ => true
  | none => true

/-- An import-queue/client environment in which every hash is `Queued`,
every justification imports, and the import queue is empty. -/
def envQueued : Env :=
  { importingCount := 0
    importJustification := fun _ _ _ => true
    isImportingBlock := fun _ => false
    clientBlockHash := fun _ => Except.ok none
    clientBlockStatus := fun _ => Except.ok BlockStatus.queued
    now := 0 }

/-- An environment in which every hash is `Unknown`; `importing` and
`now` are parameters. -/
def envUnknown (importing : Nat) (now : Instant) : Env :=
  { importingCount := importing
    importJustification := fun _ _ _ => true
    isImportingBlock := fun _ => false
    clientBlockHash := fun _ => Except.ok none
    clientBlockStatus := fun _ => Except.ok BlockStatus.unknown
    now := now }

/-- An environment in which every hash is `InChain`. -/
def envInChain (now : Instant) : Env :=
  { importingCount := 0
    importJustification := fun _ _ _ => true
    isImportingBlock := fun _ => false
    clientBlockHash := fun _ => Except.ok none
    clientBlockStatus := fun _ => Except.ok BlockStatus.inChain
    now := now }

/-- A fresh engine over a chain whose best queued block is `(77, n)`. -/
def engineAt (n : Nat) : ChainSync :=
  ChainSync.new true
    { genesisHash := 99, bestHash := 77, bestNumber := n,
      bestQueuedHash := none, bestQueuedNumber := none }

/-- Whether a peer state is an ancestor search. -/
def isAncestorSearch : PeerSyncState → Bool
  | PeerSyncState.ancestorSearch _ => true
  | _ => false

/-- A peer with `common_number = 10`, `best_number = 20`, available. -/
def peerHigh : PeerSync :=
  { commonNumber := 10, bestHash := 1, bestNumber := 20,
    state := PeerSyncState.available, recentlyAnnounced := [] }

/-- An engine at best-queued height 10 with the single peer `peerHigh`. -/
def sHigh : ChainSync := { (engineAt 10) with peers := [(0, peerHigh)] }

/-- A pending-justifications state with `(55, 50)` in flight with peer 0. -/
def pjOne : PendingJustifications :=
  { justifications := [(55, 50)], pendingRequests := [],
    peerRequests := [(0, (55, 50))], previousRequests := [] }

/-- A pending-justifications state with `(55, 50)` queued, nothing in
flight. -/
def pjPending : PendingJustifications :=
  { justifications := [(55, 50)], pendingRequests := [(55, 50)],
    peerRequests := [], previousRequests := [] }

/-- Peer 0: serving the justification request `(55, 50)`. -/
def peerServing : PeerSync :=
  { commonNumber := 0, bestHash := 1, bestNumber := 150,
    state := PeerSyncState.downloadingJustification 55, recentlyAnnounced := [] }

/-- Peer 1: available at best 150. -/
def peerFree : PeerSync :=
  { commonNumber := 0, bestHash := 2, bestNumber := 150,
    state := PeerSyncState.available, recentlyAnnounced := [] }

/-- Peer 0 in ancestor search at height 15 with best 20. -/
def peerSearching : PeerSync :=
  { commonNumber := 0, bestHash := 5, bestNumber := 20,
    state := PeerSyncState.ancestorSearch 15, recentlyAnnounced := [] }

/-- An engine at height 20 whose peer 0 is in ancestor search. -/
def sSearch : ChainSync := { (engineAt 20) with peers := [(0, peerSearching)] }

/-- An environment whose client maps height `m` to hash `100 + m`. -/
def envLookup : Env :=
  { importingCount := 0
    importJustification := fun _ _ _ => true
    isImportingBlock := fun _ => false
    clientBlockHash := fun m => Except.ok (some (100 + m))
    clientBlockStatus := fun _ => Except.ok BlockStatus.inChain
    now := 0 }

/-- An engine where peer 0 serves `(55, 50)` and peer 1 is available. -/
def sServing : ChainSync :=
  { (engineAt 100) with
    peers := [(0, peerServing), (1, peerFree)]
    justifications := pjOne }

/-! ### Lemmas about the association-list operations -/

section AssocLemmas

variable {α β γ : Type} [DecidableEq α]

theorem lookupA_insertA (l : List (α × β)) (a : α) (b : β) (x : α) :
    lookupA (insertA l a b) x = if a = x then some b else lookupA l x := by
  induction l with
  | nil => by_cases h : a = x <;> simp [insertA, lookupA, h]
  | cons e t ih =>
      obtain ⟨k, v⟩ := e
      by_cases hk : k = a
      · subst hk
        by_cases hx : k = x
        · subst hx
          simp [insertA, lookupA]
        · simp [insertA, lookupA, hx]
      · by_cases hx : k = x
        · subst hx
          have hax : ¬ a = k := fun h => hk h.symm
          simp [insertA, lookupA, hk, hax]
        · simp [insertA, lookupA, hk, hx, ih]

theorem lookupA_eraseA (l : List (α × β)) (a x : α) :
    lookupA (eraseA l a) x = if a = x then none else lookupA l x := by
  induction l with
  | nil => by_cases h : a = x <;> simp [eraseA, lookupA, h]
  | cons e t ih =>
      obtain ⟨k, v⟩ := e
      by_cases hk : k = a
      · subst hk
        have he : eraseA ((k, v) :: t) k = eraseA t k := by simp [eraseA]
        rw [he, ih]
        by_cases hx : k = x <;> simp [lookupA, hx]
      · have he : eraseA ((k, v) :: t) a = (k, v) :: eraseA t a := by
          simp [eraseA, hk]
        rw [he]
        by_cases hx : k = x
        · subst hx
          have hax : ¬ a = k := fun h => hk h.symm
          simp [lookupA, hax]
        · simp [lookupA, hx, ih]

theorem lookupA_updateA (l : List (α × β)) (a : α) (f : β → β) (x : α) :
    lookupA (updateA l a f) x =
      if a = x then (lookupA l x).map f else lookupA l x := by
  induction l with
  | nil => by_cases h : a = x <;> simp [updateA, lookupA, h]
  | cons e t ih =>
      obtain ⟨k, v⟩ := e
      by_cases hk : k = a
      · subst hk
        by_cases hx : k = x
        · subst hx
          simp [updateA, lookupA]
        · simp [updateA, lookupA, hx]
      · by_cases hx : k = x
        · subst hx
          have hax : ¬ a = k := fun h => hk h.symm
          simp [updateA, lookupA, hk, hax]
        · simp [updateA, lookupA, hk, hx, ih]

theorem lookupA_mem {l : List (α × β)} {a : α} {b : β}
    (h : lookupA l a = some b) : (a, b) ∈ l := by
  induction l with
  | nil => simp [lookupA] at h
  | cons e t ih =>
      obtain ⟨k, v⟩ := e
      by_cases hk : k = a
      · subst hk
        simp [lookupA] at h
        subst h
        exact List.mem_cons_self _ _
      · simp [lookupA, hk] at h
        exact List.mem_cons_of_mem _ (ih h)


theorem mem_insertA {l : List (α × β)} {a : α} {b : β} {x : α × β}
    (h : x ∈ insertA l a b) : x = (a, b) ∨ x ∈ l := by
  induction l with
  | nil => simpa [insertA] using h
  | cons e t ih =>
      by_cases hk : e.1 = a
      · simp [insertA, hk] at h
        rcases h with h | h
        · left
          simp [h]
        · right
          exact List.mem_cons_of_mem _ h
      · simp [insertA, hk] at h
        rcases h with h | h
        · right
          simp [h]
        · rcases ih h with h1 | h1
          · exact Or.inl h1
          · exact Or.inr (List.mem_cons_of_mem _ h1)

theorem lookupA_eq_none_not_mem {l : List (α × β)} {a : α} {b : β}
    (h : lookupA l a = none) : (a, b) ∉ l := by
  induction l with
  | nil => simp
  | cons e t ih =>
      by_cases hk : e.1 = a
      · simp [lookupA, hk] at h
      · simp [lookupA, hk] at h
        intro hm
        rcases List.mem_cons.mp hm with h1 | h1
        · exact hk (by simp [← h1])
        · exact ih h h1

theorem mem_lookupA_isSome {l : List (α × β)} {a : α} {b : β}
    (h : (a, b) ∈ l) : ∃ c, lookupA l a = some c := by
  induction l with
  | nil => simp at h
  | cons e t ih =>
      by_cases hk : e.1 = a
      · exact ⟨e.2, by simp [lookupA, hk]⟩
      · rcases List.mem_cons.mp h with h1 | h1
        · exact absurd (by simp [← h1]) hk
        · simpa [lookupA, hk] using ih h1

theorem mem_updateA {l : List (α × β)} {a : α} {f : β → β} {x : α × β}
    (h : x ∈ updateA l a f) :
    ∃ y ∈ l, x.1 = y.1 ∧ (x.2 = y.2 ∨ x.2 = f y.2) := by
  induction l with
  | nil => simp [updateA] at h
  | cons e t ih =>
      by_cases hk : e.1 = a
      · simp [updateA, hk] at h
        rcases h with h | h
        · exact ⟨e, List.mem_cons_self _ _, by simp [h, hk], Or.inr (by simp [h])⟩
        · exact ⟨x, List.mem_cons_of_mem _ h, rfl, Or.inl rfl⟩
      · simp [updateA, hk] at h
        rcases h with h | h
        · exact ⟨e, List.mem_cons_self _ _, by simp [h], Or.inl (by simp [h])⟩
        · rcases ih h with ⟨y, hy, h1, h2⟩
          exact ⟨y, List.mem_cons_of_mem _ hy, h1, h2⟩

theorem mem_eraseA {l : List (α × β)} {a : α} {x : α × β}
    (h : x ∈ eraseA l a) : x ∈ l ∧ x.1 ≠ a := by
  have := List.mem_filter.mp h
  exact ⟨this.1, by simpa using this.2⟩

theorem map_fst_updateA (l : List (α × β)) (a : α) (f : β → β) :
    (updateA l a f).map Prod.fst = l.map Prod.fst := by
  induction l with
  | nil => simp [updateA]
  | cons e t ih =>
      by_cases hk : e.1 = a <;> simp [updateA, hk, ih]

theorem nodup_fst_insertA {l : List (α × β)} (a : α) (b : β)
    (h : (l.map Prod.fst).Nodup) : ((insertA l a b).map Prod.fst).Nodup := by
  induction l with
  | nil => simp [insertA]
  | cons e t ih =>
      by_cases hk : e.1 = a
      · have h2 : insertA (e :: t) a b = (a, b) :: t := by simp [insertA, hk]
        rw [h2, List.map_cons, List.nodup_cons]
        rw [List.map_cons, List.nodup_cons, hk] at h
        simpa using h
      · have h2 : insertA (e :: t) a b = e :: insertA t a b := by
          simp [insertA, hk]
        rw [List.map_cons, List.nodup_cons] at h
        rw [h2, List.map_cons, List.nodup_cons]
        refine ⟨fun hmem => ?_, ih h.2⟩
        rcases List.mem_map.mp hmem with ⟨y, hy, hfst⟩
        rcases mem_insertA hy with h1 | h1
        · apply hk
          rw [← hfst, h1]
        · exact h.1 (hfst ▸ List.mem_map_of_mem Prod.fst h1)

theorem nodup_fst_eraseA {l : List (α × β)} (a : α)
    (h : (l.map Prod.fst).Nodup) : ((eraseA l a).map Prod.fst).Nodup :=
  ((List.filter_sublist l).map Prod.fst).nodup h

theorem lookupA_map_val (l : List (α × β)) (f : α → β → γ) (x : α) :
    lookupA (l.map (fun e => (e.1, f e.1 e.2))) x = (lookupA l x).map (f x) := by
  induction l with
  | nil => simp [lookupA]
  | cons e t ih =>
      by_cases hk : e.1 = x
      · subst hk
        simp [lookupA]
      · simp [lookupA, hk, ih]

theorem mem_updateA_lookup {l : List (α × β)} {a : α} {f : β → β} {v : β}
    {x : α × β} (hl : lookupA l a = some v) (h : x ∈ updateA l a f) :
    x = (a, f v) ∨ x ∈ l := by
  induction l with
  | nil => simp [updateA] at h
  | cons e t ih =>
      by_cases hk : e.1 = a
      · simp only [lookupA, hk, if_pos] at hl
        have hv : e.2 = v := by simpa using hl
        simp only [updateA, hk, if_pos] at h
        rcases List.mem_cons.mp h with h1 | h1
        · left
          rw [h1, hv]
        · right
          exact List.mem_cons_of_mem _ h1
      · simp only [lookupA, hk, if_neg, if_false] at hl
        simp only [updateA, hk, if_neg, if_false] at h
        rcases List.mem_cons.mp h with h1 | h1
        · right
          rw [h1]
          exact List.mem_cons_self _ _
        · rcases ih hl h1 with h2 | h2
          · exact Or.inl h2
          · exact Or.inr (List.mem_cons_of_mem _ h2)

theorem lookupA_of_mem_nodup {l : List (α × β)} {a : α} {b : β}
    (hnd : (l.map Prod.fst).Nodup) (h : (a, b) ∈ l) : lookupA l a = some b := by
  induction l with
  | nil => simp at h
  | cons e t ih =>
      have hnd' := hnd
      rw [List.map_cons, List.nodup_cons] at hnd'
      rcases List.mem_cons.mp h with h1 | h1
      · rw [← h1]
        simp [lookupA]
      · have hne : ¬ e.1 = a := by
          intro hc
          have hmem : a ∈ t.map Prod.fst :=
            List.mem_map_of_mem Prod.fst (by exact h1)
          rw [← hc] at hmem
          exact hnd'.1 hmem
        simp only [lookupA, hne, if_neg, if_false]
        exact ih hnd'.2 h1

end AssocLemmas

/-! ### Lemmas about the justification dispatcher -/

namespace PendingJustifications

theorem rotFind_eq_some {f : PeerId × Nat → Bool} {l acc : List (PeerId × Nat)}
    {x : PeerId × Nat} {rest : List (PeerId × Nat)}
    (h : rotFind f l acc = some (x, rest)) :
    ∃ l1 l2, l = l1 ++ x :: l2 ∧ rest = l2 ++ acc.reverse ++ l1 ∧
      f x = true ∧ ∀ y ∈ l1, f y = false := by
  induction l generalizing acc with
  | nil => simp [rotFind] at h
  | cons z zs ih =>
      by_cases hz : f z = true
      · simp [rotFind, hz] at h
        exact ⟨[], zs, by simp [h.1], by simp [h.2], by rw [← h.1]; exact hz,
          by simp⟩
      · simp [rotFind, hz] at h
        rcases ih h with ⟨l1, l2, h1, h2, h3, h4⟩
        refine ⟨z :: l1, l2, by simp [h1], ?_, h3, ?_⟩
        · rw [h2]
          simp
        · intro y hy
          rcases List.mem_cons.mp hy with hy | hy
          · subst hy
            simpa using hz
          · exact h4 y hy

theorem rotFind_perm {f : PeerId × Nat → Bool} {d : List (PeerId × Nat)}
    {x : PeerId × Nat} {rest : List (PeerId × Nat)}
    (h : rotFind f d [] = some (x, rest)) : d.Perm (x :: rest) := by
  rcases rotFind_eq_some h with ⟨l1, l2, h1, h2, _, _⟩
  subst h1
  subst h2
  have h3 : l2 ++ List.reverse ([] : List (PeerId × Nat)) ++ l1 = l2 ++ l1 := by
    simp
  rw [h3]
  exact List.Perm.trans List.perm_middle (List.Perm.cons x List.perm_append_comm)

theorem dispatchLoop_assign_mem {g : Req → PeerId × Nat → Bool}
    {q : List Req} {d : List (PeerId × Nat)} {p : PeerId} {r : Req}
    (h : (p, r) ∈ (dispatchLoop g q d).1) :
    ∃ b, (p, b) ∈ d ∧ g r (p, b) = true ∧ r ∈ q := by
  induction q generalizing d with
  | nil => simp [dispatchLoop] at h
  | cons r0 rs ih =>
      by_cases hd : d.isEmpty
      · simp [dispatchLoop, hd] at h
      · cases hrot : rotFind (g r0) d [] with
        | none =>
            simp only [dispatchLoop, hd, hrot, Bool.false_eq_true, if_false] at h
            rcases ih h with ⟨b, h1, h2, h3⟩
            exact ⟨b, h1, h2, List.mem_cons_of_mem _ h3⟩
        | some pd =>
            obtain ⟨p0, d'⟩ := pd
            simp only [dispatchLoop, hd, hrot, Bool.false_eq_true, if_false,
              List.mem_cons] at h
            rcases h with h | h
            · obtain ⟨h5, h6⟩ := Prod.mk.injEq .. ▸ h
              rcases rotFind_eq_some hrot with ⟨l1, l2, hl, _, hf, _⟩
              subst h5
              subst h6
              refine ⟨p0.2, ?_, by simpa using hf, List.mem_cons_self _ _⟩
              rw [hl]
              simp
            · rcases ih h with ⟨b, h1, h2, h3⟩
              have hmem : (p, b) ∈ d :=
                (rotFind_perm hrot).mem_iff.mpr (List.mem_cons_of_mem _ h1)
              exact ⟨b, hmem, h2, List.mem_cons_of_mem _ h3⟩

theorem dispatchLoop_conserve {g : Req → PeerId × Nat → Bool}
    {q : List Req} {d : List (PeerId × Nat)} {r : Req} (h : r ∈ q) :
    r ∈ (dispatchLoop g q d).2.1 ++ (dispatchLoop g q d).2.2 ∨
      ∃ p, (p, r) ∈ (dispatchLoop g q d).1 := by
  induction q generalizing d with
  | nil => simp at h
  | cons r0 rs ih =>
      by_cases hd : d.isEmpty
      · left
        simpa [dispatchLoop, hd] using h
      · cases hrot : rotFind (g r0) d [] with
        | none =>
            rcases List.mem_cons.mp h with h1 | h1
            · left
              subst h1
              simp [dispatchLoop, hd, hrot]
            · rcases ih (d := d) h1 with h2 | h2
              · left
                simp only [dispatchLoop, hd, hrot, Bool.false_eq_true, if_false]
                rcases List.mem_append.mp h2 with h3 | h3
                · exact List.mem_append.mpr (Or.inl h3)
                · exact List.mem_append.mpr (Or.inr (List.mem_cons_of_mem _ h3))
              · right
                rcases h2 with ⟨p, hp⟩
                refine ⟨p, ?_⟩
                simpa [dispatchLoop, hd, hrot] using hp
        | some pd =>
            obtain ⟨p0, d'⟩ := pd
            rcases List.mem_cons.mp h with h1 | h1
            · right
              refine ⟨p0.1, ?_⟩
              simp [dispatchLoop, hd, hrot, h1]
            · rcases ih (d := d') h1 with h2 | h2
              · left
                simpa [dispatchLoop, hd, hrot] using h2
              · right
                rcases h2 with ⟨p, hp⟩
                refine ⟨p, ?_⟩
                simp [dispatchLoop, hd, hrot, hp]

theorem dispatchLoop_nodup {g : Req → PeerId × Nat → Bool}
    {q : List Req} {d : List (PeerId × Nat)}
    (h : (d.map Prod.fst).Nodup) :
    ((dispatchLoop g q d).1.map Prod.fst).Nodup ∧
      ∀ p ∈ (dispatchLoop g q d).1.map Prod.fst, p ∈ d.map Prod.fst := by
  induction q generalizing d with
  | nil => simp [dispatchLoop]
  | cons r0 rs ih =>
      by_cases hd : d.isEmpty
      · simp [dispatchLoop, hd]
      · cases hrot : rotFind (g r0) d [] with
        | none =>
            simpa only [dispatchLoop, hd, hrot, Bool.false_eq_true, if_false]
              using ih h
        | some pd =>
            obtain ⟨p0, d'⟩ := pd
            have hperm : (d.map Prod.fst).Perm (p0.1 :: d'.map Prod.fst) := by
              simpa using (rotFind_perm hrot).map Prod.fst
            have hcons : ((p0.1 :: d'.map Prod.fst)).Nodup := hperm.nodup_iff.mp h
            have hnotin : p0.1 ∉ d'.map Prod.fst := (List.nodup_cons.mp hcons).1
            have hd' : (d'.map Prod.fst).Nodup := (List.nodup_cons.mp hcons).2
            rcases ih (d := d') hd' with ⟨ih1, ih2⟩
            constructor
            · simp only [dispatchLoop, hd, hrot, Bool.false_eq_true, if_false,
                List.map_cons, List.nodup_cons]
              exact ⟨fun hm => hnotin (ih2 _ hm), ih1⟩
            · intro p hp
              simp only [dispatchLoop, hd, hrot, Bool.false_eq_true, if_false,
                List.map_cons, List.mem_cons] at hp
              rcases hp with hp | hp
              · subst hp
                exact hperm.mem_iff.mpr (List.mem_cons_self _ _)
              · exact hperm.mem_iff.mpr (List.mem_cons_of_mem _ (ih2 _ hp))

theorem lookupA_recordAssignments_some {as : List (PeerId × Req)}
    {m : List (PeerId × Req)} {p : PeerId} {r : Req}
    (h : lookupA (recordAssignments as m) p = some r) :
    (p, r) ∈ as ∨ lookupA m p = some r := by
  induction as generalizing m with
  | nil => exact Or.inr h
  | cons a t ih =>
      rcases ih h with h1 | h1
      · exact Or.inl (List.mem_cons_of_mem _ h1)
      · rw [lookupA_insertA] at h1
        by_cases hk : a.1 = p
        · left
          have h2 : a.2 = r := by simpa [hk] using h1
          have h3 : (p, r) = a := by rw [← hk, ← h2]
          rw [h3]
          exact List.mem_cons_self _ _
        · right
          simpa [hk] using h1

theorem lookupA_recordAssignments_frame {as : List (PeerId × Req)}
    {m : List (PeerId × Req)} {p : PeerId}
    (h : ∀ a ∈ as, a.1 ≠ p) :
    lookupA (recordAssignments as m) p = lookupA m p := by
  induction as generalizing m with
  | nil => rfl
  | cons a t ih =>
      have h1 := ih (m := insertA m a.1 a.2) (fun x hx => h x (List.mem_cons_of_mem _ hx))
      rw [recordAssignments, h1, lookupA_insertA]
      simp [h a (List.mem_cons_self _ _)]

theorem lookupA_recordAssignments_of_mem {as : List (PeerId × Req)}
    {m : List (PeerId × Req)} {p : PeerId} {r : Req}
    (hnd : (as.map Prod.fst).Nodup) (hm : (p, r) ∈ as) :
    lookupA (recordAssignments as m) p = some r := by
  induction as generalizing m with
  | nil => simp at hm
  | cons a t ih =>
      have hnd' := hnd
      rw [List.map_cons, List.nodup_cons] at hnd'
      rcases List.mem_cons.mp hm with h1 | h1
      · have hp : a.1 = p := by rw [← h1]
        have hnotin : ∀ x ∈ t, x.1 ≠ p := by
          intro x hx hc
          have hmem : x.1 ∈ t.map Prod.fst := List.mem_map_of_mem Prod.fst hx
          rw [hc, ← hp] at hmem
          exact hnd'.1 hmem
        rw [recordAssignments, lookupA_recordAssignments_frame hnotin,
          lookupA_insertA]
        simp [hp, ← h1]
      · exact ih hnd'.2 h1

theorem lookupA_applyAssignments_frame {as : List (PeerId × Req)}
    {ps : List (PeerId × PeerSync)} {p : PeerId}
    (h : ∀ a ∈ as, a.1 ≠ p) :
    lookupA (applyAssignments as ps) p = lookupA ps p := by
  induction as generalizing ps with
  | nil => rfl
  | cons a t ih =>
      rw [applyAssignments, ih (fun x hx => h x (List.mem_cons_of_mem _ hx)),
        lookupA_updateA]
      simp [h a (List.mem_cons_self _ _)]

theorem lookupA_applyAssignments_none {as : List (PeerId × Req)}
    {ps : List (PeerId × PeerSync)} {p : PeerId}
    (h : lookupA ps p = none) :
    lookupA (applyAssignments as ps) p = none := by
  induction as generalizing ps with
  | nil => exact h
  | cons a t ih =>
      refine ih ?_
      rw [lookupA_updateA, h]
      simp

theorem lookupA_applyAssignments_some {as : List (PeerId × Req)}
    {ps : List (PeerId × PeerSync)} {p : PeerId} {q : PeerSync}
    (h : lookupA (applyAssignments as ps) p = some q) :
    ∃ q0, lookupA ps p = some q0 ∧
      (q = q0 ∨ ∃ hh, q = { q0 with
        state := PeerSyncState.downloadingJustification hh }) := by
  induction as generalizing ps with
  | nil => exact ⟨q, h, Or.inl rfl⟩
  | cons a t ih =>
      rcases ih h with ⟨q1, hq1, hform⟩
      rw [lookupA_updateA] at hq1
      by_cases hk : a.1 = p
      · simp only [hk, if_true] at hq1
        cases hps : lookupA ps p with
        | none =>
            rw [hps] at hq1
            simp at hq1
        | some q0 =>
            rw [hps] at hq1
            simp at hq1
            refine ⟨q0, rfl, ?_⟩
            rcases hform with hform | ⟨hh, hform⟩
            · exact Or.inr ⟨a.2.1, by rw [hform, ← hq1]⟩
            · refine Or.inr ⟨hh, ?_⟩
              subst hform
              rw [← hq1]
      · simp only [hk, if_false] at hq1
        exact ⟨q1, hq1, hform⟩

theorem map_fst_applyAssignments (as : List (PeerId × Req))
    (ps : List (PeerId × PeerSync)) :
    (applyAssignments as ps).map Prod.fst = ps.map Prod.fst := by
  induction as generalizing ps with
  | nil => rfl
  | cons a t ih => rw [applyAssignments, ih, map_fst_updateA]

theorem mem_applyAssignments {as : List (PeerId × Req)}
    {ps : List (PeerId × PeerSync)} {x : PeerId × PeerSync}
    (h : x ∈ applyAssignments as ps) :
    ∃ y ∈ ps, x.1 = y.1 ∧ x.2.commonNumber = y.2.commonNumber ∧
      x.2.bestNumber = y.2.bestNumber ∧
      (x.2.state = y.2.state ∨
        ∃ hh, x.2.state = PeerSyncState.downloadingJustification hh) := by
  induction as generalizing ps with
  | nil => exact ⟨x, h, rfl, rfl, rfl, Or.inl rfl⟩
  | cons a t ih =>
      rcases ih h with ⟨y, hy, h1, h2, h3, h4⟩
      rcases mem_updateA hy with ⟨z, hz, g1, g2⟩
      refine ⟨z, hz, h1.trans g1, ?_, ?_, ?_⟩
      · rcases g2 with g2 | g2 <;> rw [h2, g2]
      · rcases g2 with g2 | g2 <;> rw [h3, g2]
      · rcases g2 with g2 | g2
        · rw [g2] at h4
          exact h4
        · rcases h4 with h4 | h4
          · rw [g2] at h4
            exact Or.inr ⟨a.2.1, h4⟩
          · exact Or.inr h4

theorem mem_candidates {pj : PendingJustifications}
    {peers : List (PeerId × PeerSync)} {p : PeerId} {b : Nat}
    (h : (p, b) ∈ candidates pj peers) :
    ∃ ps, (p, ps) ∈ peers ∧ ps.state = PeerSyncState.available ∧
      lookupA pj.peerRequests p = none ∧ b = ps.bestNumber := by
  rw [candidates] at h
  rcases List.mem_filterMap.mp h with ⟨pp, hpp, hg⟩
  split_ifs at hg with hc
  have hpair : (pp.1, pp.2.bestNumber) = (p, b) := Option.some_injective _ hg
  have h1 : pp.1 = p := congrArg Prod.fst hpair
  have h2 : pp.2.bestNumber = b := congrArg Prod.snd hpair
  refine ⟨pp.2, ?_, hc.1, h1 ▸ hc.2, h2.symm⟩
  rw [← h1]
  simpa using hpp

theorem candidates_fst_sublist (pj : PendingJustifications)
    (peers : List (PeerId × PeerSync)) :
    ((candidates pj peers).map Prod.fst).Sublist (peers.map Prod.fst) := by
  induction peers with
  | nil => simp [candidates]
  | cons pp t ih =>
      by_cases hc : pp.2.state = PeerSyncState.available ∧
          lookupA pj.peerRequests pp.1 = none
      · have : candidates pj (pp :: t) = (pp.1, pp.2.bestNumber) :: candidates pj t := by
          simp [candidates, List.filterMap_cons, hc]
        rw [this, List.map_cons, List.map_cons]
        exact List.Sublist.cons₂ _ ih
      · have : candidates pj (pp :: t) = candidates pj t := by
          simp [candidates, List.filterMap_cons, hc]
        rw [this, List.map_cons]
        exact List.Sublist.cons _ ih

theorem lookupA_purge (prev : List (Req × List (PeerId × Instant)))
    (now : Instant) (r : Req) :
    lookupA (purge prev now) r = (lookupA prev r).map
      (List.filter (fun pt => decide (now - pt.2 < JUSTIFICATION_RETRY_WAIT))) := by
  simpa [purge] using lookupA_map_val prev
    (fun _ v => v.filter (fun pt => decide (now - pt.2 < JUSTIFICATION_RETRY_WAIT))) r

theorem eligible_history {prev0 : List (Req × List (PeerId × Instant))}
    {now : Instant} {r : Req} {p : PeerId} {b : Nat}
    (h : eligible (purge prev0 now) r (p, b) = true) :
    ∀ t, (p, t) ∈ (lookupA prev0 r).getD [] → JUSTIFICATION_RETRY_WAIT ≤ now - t := by
  intro t ht
  by_contra hlt
  push_neg at hlt
  cases hl : lookupA prev0 r with
  | none => rw [hl] at ht; simp at ht
  | some lst =>
      rw [hl] at ht
      simp only [Option.getD_some] at ht
      have hk : (p, t) ∈ (lookupA (purge prev0 now) r).getD [] := by
        rw [lookupA_purge, hl]
        exact List.mem_filter.mpr ⟨ht, by simpa using hlt⟩
      simp only [eligible, Bool.and_eq_true, decide_eq_true_eq] at h
      have h2 := h.2
      have h3 : ((lookupA (purge prev0 now) r).getD []).any
          (fun i => decide (i.1 = p)) = true :=
        List.any_eq_true.mpr ⟨(p, t), hk, by simp⟩
      rw [h3] at h2
      simp at h2

theorem eligible_best {prev : List (Req × List (PeerId × Instant))}
    {r : Req} {p : PeerId} {b : Nat}
    (h : eligible prev r (p, b) = true) : r.2 ≤ b := by
  simp only [eligible, Bool.and_eq_true, decide_eq_true_eq] at h
  exact h.1

theorem dispatch_peerRequests_lookup {pj : PendingJustifications}
    {peers : List (PeerId × PeerSync)} {now : Instant} {p : PeerId} {r : Req}
    (h : lookupA (pj.dispatch peers now).1.peerRequests p = some r) :
    lookupA pj.peerRequests p = some r ∨
      ((p, r) ∈ (dispatchLoop (eligible (purge pj.previousRequests now))
          pj.pendingRequests (candidates pj peers)).1 ∧
        ∃ ps, (p, ps) ∈ peers ∧ ps.state = PeerSyncState.available ∧
          lookupA pj.peerRequests p = none ∧ r.2 ≤ ps.bestNumber ∧
          eligible (purge pj.previousRequests now) r (p, ps.bestNumber) = true ∧
          r ∈ pj.pendingRequests) := by
  by_cases he : pj.pendingRequests.isEmpty
  · left
    simpa [dispatch, he] using h
  · simp only [dispatch, he, Bool.false_eq_true, if_false] at h
    rcases lookupA_recordAssignments_some h with h1 | h1
    · right
      refine ⟨h1, ?_⟩
      rcases dispatchLoop_assign_mem h1 with ⟨b, hb, helig, hq⟩
      rcases mem_candidates hb with ⟨ps, hmem, hav, hnone, hbb⟩
      subst hbb
      exact ⟨ps, hmem, hav, hnone, eligible_best helig, helig, hq⟩
    · exact Or.inl h1

theorem dispatch_conserve {pj : PendingJustifications}
    {peers : List (PeerId × PeerSync)} {now : Instant} {r : Req}
    (hnd : (peers.map Prod.fst).Nodup) (h : r ∈ pj.pendingRequests) :
    r ∈ (pj.dispatch peers now).1.pendingRequests ∨
      ∃ q, lookupA (pj.dispatch peers now).1.peerRequests q = some r := by
  by_cases he : pj.pendingRequests.isEmpty
  · left
    simpa [dispatch, he] using h
  · have hcand : ((candidates pj peers).map Prod.fst).Nodup :=
      (candidates_fst_sublist pj peers).nodup hnd
    have hloop := dispatchLoop_nodup
      (g := eligible (purge pj.previousRequests now))
      (q := pj.pendingRequests) hcand
    rcases dispatchLoop_conserve
        (g := eligible (purge pj.previousRequests now))
        (d := candidates pj peers) h with h1 | ⟨p, hp⟩
    · left
      simpa [dispatch, he] using h1
    · right
      refine ⟨p, ?_⟩
      simp only [dispatch, he, Bool.false_eq_true, if_false]
      exact lookupA_recordAssignments_of_mem hloop.1 hp

theorem dispatch_assign_of_mem {pj : PendingJustifications}
    {peers : List (PeerId × PeerSync)} {now : Instant} {a : PeerId × Req}
    (ha : a ∈ (dispatchLoop (eligible (purge pj.previousRequests now))
        pj.pendingRequests (candidates pj peers)).1) :
    ∃ ps, (a.1, ps) ∈ peers ∧ ps.state = PeerSyncState.available ∧
      lookupA pj.peerRequests a.1 = none := by
  rcases dispatchLoop_assign_mem (p := a.1) (r := a.2) (by simpa using ha) with
    ⟨b, hb, _, _⟩
  rcases mem_candidates hb with ⟨ps, hmem, hav, hnone, _⟩
  exact ⟨ps, hmem, hav, hnone⟩

theorem dispatch_peerRequests_frame {pj : PendingJustifications}
    {peers : List (PeerId × PeerSync)} {now : Instant} {p : PeerId}
    (hb : lookupA pj.peerRequests p = none) (hnp : p ∉ peers.map Prod.fst) :
    lookupA (pj.dispatch peers now).1.peerRequests p = none := by
  by_cases he : pj.pendingRequests.isEmpty
  · simpa [dispatch, he] using hb
  · simp only [dispatch, he, Bool.false_eq_true, if_false]
    rw [lookupA_recordAssignments_frame]
    · exact hb
    · intro a ha hc
      rcases dispatch_assign_of_mem ha with ⟨ps, hmem, _, _⟩
      exact hnp (hc ▸ List.mem_map_of_mem Prod.fst hmem)

theorem dispatch_peers_none {pj : PendingJustifications}
    {peers : List (PeerId × PeerSync)} {now : Instant} {p : PeerId}
    (h : lookupA peers p = none) :
    lookupA (pj.dispatch peers now).2.1 p = none := by
  by_cases he : pj.pendingRequests.isEmpty
  · simpa [dispatch, he] using h
  · simp only [dispatch, he, Bool.false_eq_true, if_false]
    exact lookupA_applyAssignments_none h

theorem dispatch_peers_fst (pj : PendingJustifications)
    (peers : List (PeerId × PeerSync)) (now : Instant) :
    (pj.dispatch peers now).2.1.map Prod.fst = peers.map Prod.fst := by
  by_cases he : pj.pendingRequests.isEmpty
  · simp [dispatch, he]
  · simp only [dispatch, he, Bool.false_eq_true, if_false]
    exact map_fst_applyAssignments _ _

theorem einv_record_apply {as : List (PeerId × Req)} {m : List (PeerId × Req)}
    {ps : List (PeerId × PeerSync)}
    (hnd : (as.map Prod.fst).Nodup)
    (hnone : ∀ a ∈ as, lookupA m a.1 = none)
    (hkeys : ∀ a ∈ as, ∃ q, lookupA ps a.1 = some q)
    (hold : ∀ e ∈ m, (lookupA ps e.1).map PeerSync.state =
      some (PeerSyncState.downloadingJustification e.2.1)) :
    ∀ e ∈ recordAssignments as m,
      (lookupA (applyAssignments as ps) e.1).map PeerSync.state =
        some (PeerSyncState.downloadingJustification e.2.1) := by
  induction as generalizing m ps with
  | nil => exact hold
  | cons a t ih =>
      intro e he
      rw [recordAssignments] at he
      rw [applyAssignments]
      have hnd' : a.1 ∉ t.map Prod.fst ∧ (t.map Prod.fst).Nodup := by
        rw [List.map_cons, List.nodup_cons] at hnd
        exact hnd
      refine ih hnd'.2 ?_ ?_ ?_ e he
      · intro x hx
        rw [lookupA_insertA]
        have hne : ¬ a.1 = x.1 := fun hc =>
          hnd'.1 (hc ▸ List.mem_map_of_mem Prod.fst hx)
        rw [if_neg hne]
        exact hnone x (List.mem_cons_of_mem _ hx)
      · intro x hx
        rcases hkeys x (List.mem_cons_of_mem _ hx) with ⟨q, hq⟩
        rw [lookupA_updateA]
        by_cases hc : a.1 = x.1
        · rw [if_pos hc, hq]
          exact ⟨_, rfl⟩
        · rw [if_neg hc]
          exact ⟨q, hq⟩
      · intro x hx
        rcases mem_insertA hx with h1 | h1
        · rcases hkeys a (List.mem_cons_self _ _) with ⟨q, hq⟩
          rw [h1]
          rw [lookupA_updateA, if_pos rfl, hq]
          rfl
        · have hne : ¬ a.1 = x.1 := by
            intro hc
            have hx2 : (a.1, x.2) ∈ m := by
              rw [hc]
              simpa using h1
            exact lookupA_eq_none_not_mem
              (hnone a (List.mem_cons_self _ _)) hx2
          rw [lookupA_updateA, if_neg hne]
          exact hold x h1

theorem dispatch_einv {pj : PendingJustifications}
    {peers : List (PeerId × PeerSync)} {now : Instant}
    (hnd : (peers.map Prod.fst).Nodup)
    (hold : ∀ e ∈ pj.peerRequests, (lookupA peers e.1).map PeerSync.state =
      some (PeerSyncState.downloadingJustification e.2.1)) :
    ∀ e ∈ (pj.dispatch peers now).1.peerRequests,
      (lookupA (pj.dispatch peers now).2.1 e.1).map PeerSync.state =
        some (PeerSyncState.downloadingJustification e.2.1) := by
  by_cases he : pj.pendingRequests.isEmpty
  · simpa [dispatch, he] using hold
  · simp only [dispatch, he, Bool.false_eq_true, if_false]
    have hcand : ((candidates pj peers).map Prod.fst).Nodup :=
      (candidates_fst_sublist pj peers).nodup hnd
    have hloop := dispatchLoop_nodup
      (g := eligible (purge pj.previousRequests now))
      (q := pj.pendingRequests) hcand
    refine einv_record_apply hloop.1 ?_ ?_ hold
    · intro a ha
      rcases dispatch_assign_of_mem ha with ⟨_, _, _, hnone⟩
      exact hnone
    · intro a ha
      rcases dispatch_assign_of_mem ha with ⟨ps, hmem, _, _⟩
      rcases mem_lookupA_isSome hmem with ⟨c, hc⟩
      exact ⟨c, hc⟩

theorem lookupA_applyAssignments_of_mem {as : List (PeerId × Req)}
    {ps : List (PeerId × PeerSync)} {p : PeerId} {r : Req} {q : PeerSync}
    (hnd : (as.map Prod.fst).Nodup) (hm : (p, r) ∈ as)
    (hq : lookupA ps p = some q) :
    lookupA (applyAssignments as ps) p =
      some { q with state := PeerSyncState.downloadingJustification r.1 } := by
  induction as generalizing ps with
  | nil => simp at hm
  | cons a t ih =>
      have hnd' := hnd
      rw [List.map_cons, List.nodup_cons] at hnd'
      rcases List.mem_cons.mp hm with h1 | h1
      · have hp : a.1 = p := by rw [← h1]
        have hnotin : ∀ x ∈ t, x.1 ≠ p := by
          intro x hx hc
          have hmem : x.1 ∈ t.map Prod.fst := List.mem_map_of_mem Prod.fst hx
          rw [hc, ← hp] at hmem
          exact hnd'.1 hmem
        rw [applyAssignments, lookupA_applyAssignments_frame hnotin,
          lookupA_updateA, hp, if_pos rfl, hq]
        have h2 : a.2 = r := by rw [← h1]
        rw [h2]
        rfl
      · have hne : ¬ a.1 = p := by
          intro hc
          exact hnd'.1 (hc ▸ List.mem_map_of_mem Prod.fst h1)
        rw [applyAssignments]
        refine ih hnd'.2 h1 ?_
        rw [lookupA_updateA, if_neg hne]
        exact hq

theorem filter_messages_nil {as : List (PeerId × Req)} {p : PeerId}
    (h : ∀ x ∈ as, x.1 ≠ p) :
    (as.map (fun a => Effect.sendMessage a.1 (justificationRequest a.2.1))).filter
      (fun e => match e with
        | Effect.sendMessage q _ => decide (q = p)
        | _ => false) = [] := by
  induction as with
  | nil => rfl
  | cons a t ih =>
      rw [List.map_cons, List.filter_cons]
      have hne : a.1 ≠ p := h a (List.mem_cons_self _ _)
      rw [if_neg (by simp [hne])]
      exact ih (fun x hx => h x (List.mem_cons_of_mem _ hx))

theorem filter_messages_of_mem {as : List (PeerId × Req)} {p : PeerId} {r : Req}
    (hnd : (as.map Prod.fst).Nodup) (hm : (p, r) ∈ as) :
    (as.map (fun a => Effect.sendMessage a.1 (justificationRequest a.2.1))).filter
      (fun e => match e with
        | Effect.sendMessage q _ => decide (q = p)
        | _ => false) = [Effect.sendMessage p (justificationRequest r.1)] := by
  induction as with
  | nil => simp at hm
  | cons a t ih =>
      have hnd' := hnd
      rw [List.map_cons, List.nodup_cons] at hnd'
      rw [List.map_cons, List.filter_cons]
      rcases List.mem_cons.mp hm with h1 | h1
      · rw [← h1]
        rw [if_pos (by simp)]
        rw [filter_messages_nil]
        intro x hx hc
        have hmem : x.1 ∈ t.map Prod.fst := List.mem_map_of_mem Prod.fst hx
        rw [hc] at hmem
        rw [← h1] at hnd'
        exact hnd'.1 hmem
      · have hne : a.1 ≠ p := by
          intro hc
          exact hnd'.1 (hc ▸ List.mem_map_of_mem Prod.fst h1)
        rw [if_neg (by simp [hne])]
        exact ih hnd'.2 h1

theorem mem_dispatch_peers {pj : PendingJustifications}
    {peers : List (PeerId × PeerSync)} {now : Instant} {x : PeerId × PeerSync}
    (h : x ∈ (pj.dispatch peers now).2.1) :
    ∃ y ∈ peers, x.1 = y.1 ∧ x.2.commonNumber = y.2.commonNumber ∧
      x.2.bestNumber = y.2.bestNumber ∧
      (x.2.state = y.2.state ∨
        ∃ hh, x.2.state = PeerSyncState.downloadingJustification hh) := by
  by_cases he : pj.pendingRequests.isEmpty
  · refine ⟨x, by simpa [dispatch, he] using h, rfl, rfl, rfl, Or.inl rfl⟩
  · simp only [dispatch, he, Bool.false_eq_true, if_false] at h
    exact mem_applyAssignments h

theorem dispatch_effects {pj : PendingJustifications}
    {peers : List (PeerId × PeerSync)} {now : Instant} :
    ∀ e ∈ (pj.dispatch peers now).2.2,
      ∃ p hh, e = Effect.sendMessage p (justificationRequest hh) := by
  by_cases he : pj.pendingRequests.isEmpty
  · simp [dispatch, he]
  · intro e hm
    simp only [dispatch, he, Bool.false_eq_true, if_false] at hm
    rcases List.mem_map.mp hm with ⟨a, _, hae⟩
    exact ⟨a.1, a.2.1, hae.symm⟩

end PendingJustifications

/-! ### Lemmas about the engine's maintenance path -/

theorem lookupA_eq_none_iff {α β : Type} [DecidableEq α]
    {l : List (α × β)} {a : α} :
    lookupA l a = none ↔ a ∉ l.map Prod.fst := by
  induction l with
  | nil => simp [lookupA]
  | cons e t ih =>
      by_cases hk : e.1 = a
      · simp [lookupA, hk]
      · rw [show lookupA (e :: t) a = lookupA t a from by simp [lookupA, hk]]
        rw [ih, List.map_cons, List.mem_cons]
        constructor
        · intro h hmem
          rcases hmem with hmem | hmem
          · exact hk hmem.symm
          · exact h hmem
        · intro h hmem
          exact h (Or.inr hmem)

namespace ChainSync

theorem downloadNew_justifications (s : ChainSync) (env : Env) (who : PeerId) :
    (s.downloadNew env who).1.justifications = s.justifications := by
  cases hl : lookupA s.peers who with
  | none => simp [downloadNew, hl]
  | some peer =>
      by_cases hc : MAX_IMPORTING_BLOCKS < env.importingCount
      · simp [downloadNew, hl, hc]
      · cases hst : peer.state with
        | available =>
            cases hnb : s.blocks.neededBlocks who MAX_BLOCKS_TO_REQUEST
                peer.bestNumber peer.commonNumber with
            | mk rng bc =>
                cases rng <;> simp [downloadNew, hl, hc, hst, hnb]
        | ancestorSearch n => simp [downloadNew, hl, hc, hst]
        | downloadingNew n => simp [downloadNew, hl, hc, hst]
        | downloadingStale hh => simp [downloadNew, hl, hc, hst]
        | downloadingJustification hh => simp [downloadNew, hl, hc, hst]

theorem downloadNew_peers_fst (s : ChainSync) (env : Env) (who : PeerId) :
    (s.downloadNew env who).1.peers.map Prod.fst = s.peers.map Prod.fst := by
  cases hl : lookupA s.peers who with
  | none => simp [downloadNew, hl]
  | some peer =>
      by_cases hc : MAX_IMPORTING_BLOCKS < env.importingCount
      · simp [downloadNew, hl, hc]
      · cases hst : peer.state with
        | available =>
            cases hnb : s.blocks.neededBlocks who MAX_BLOCKS_TO_REQUEST
                peer.bestNumber peer.commonNumber with
            | mk rng bc =>
                cases rng <;> simp [downloadNew, hl, hc, hst, hnb, map_fst_updateA]
        | ancestorSearch n => simp [downloadNew, hl, hc, hst]
        | downloadingNew n => simp [downloadNew, hl, hc, hst]
        | downloadingStale hh => simp [downloadNew, hl, hc, hst]
        | downloadingJustification hh => simp [downloadNew, hl, hc, hst]

theorem downloadNew_effects (s : ChainSync) (env : Env) (who : PeerId) :
    ∀ e ∈ (s.downloadNew env who).2, ∃ p br, e = Effect.sendMessage p br := by
  cases hl : lookupA s.peers who with
  | none => simp [downloadNew, hl]
  | some peer =>
      by_cases hc : MAX_IMPORTING_BLOCKS < env.importingCount
      · simp [downloadNew, hl, hc]
      · cases hst : peer.state with
        | available =>
            cases hnb : s.blocks.neededBlocks who MAX_BLOCKS_TO_REQUEST
                peer.bestNumber peer.commonNumber with
            | mk rng bc =>
                cases rng with
                | none => simp [downloadNew, hl, hc, hst, hnb]
                | some range =>
                    intro e he
                    simp [downloadNew, hl, hc, hst, hnb] at he
                    exact ⟨who, _, he⟩
        | ancestorSearch n => simp [downloadNew, hl, hc, hst]
        | downloadingNew n => simp [downloadNew, hl, hc, hst]
        | downloadingStale hh => simp [downloadNew, hl, hc, hst]
        | downloadingJustification hh => simp [downloadNew, hl, hc, hst]

theorem downloadNew_lookup (s : ChainSync) (env : Env) (who p : PeerId) :
    lookupA (s.downloadNew env who).1.peers p = lookupA s.peers p ∨
      ∃ ps n, lookupA s.peers p = some ps ∧
        ps.state = PeerSyncState.available ∧
        lookupA (s.downloadNew env who).1.peers p =
          some { ps with state := PeerSyncState.downloadingNew n } := by
  cases hl : lookupA s.peers who with
  | none => left; simp [downloadNew, hl]
  | some peer =>
      by_cases hc : MAX_IMPORTING_BLOCKS < env.importingCount
      · left; simp [downloadNew, hl, hc]
      · cases hst : peer.state with
        | available =>
            cases hnb : s.blocks.neededBlocks who MAX_BLOCKS_TO_REQUEST
                peer.bestNumber peer.commonNumber with
            | mk rng bc =>
                cases rng with
                | none => left; simp [downloadNew, hl, hc, hst, hnb]
                | some range =>
                    by_cases hp : who = p
                    · right
                      subst hp
                      refine ⟨peer, range.1, hl, hst, ?_⟩
                      simp [downloadNew, hl, hc, hst, hnb, lookupA_updateA]
                    · left
                      simp [downloadNew, hl, hc, hst, hnb, lookupA_updateA, hp]
        | ancestorSearch n => left; simp [downloadNew, hl, hc, hst]
        | downloadingNew n => left; simp [downloadNew, hl, hc, hst]
        | downloadingStale hh => left; simp [downloadNew, hl, hc, hst]
        | downloadingJustification hh => left; simp [downloadNew, hl, hc, hst]

theorem downloadNew_blocks_frame (s : ChainSync) (env : Env) (who p : PeerId)
    (hp : who ≠ p) :
    lookupA (s.downloadNew env who).1.blocks.peerRanges p =
      lookupA s.blocks.peerRanges p := by
  cases hl : lookupA s.peers who with
  | none => simp [downloadNew, hl]
  | some peer =>
      by_cases hc : MAX_IMPORTING_BLOCKS < env.importingCount
      · simp [downloadNew, hl, hc]
      · cases hst : peer.state with
        | available =>
            cases hnb0 : ((List.range' (peer.commonNumber + 1)
                (peer.bestNumber - peer.commonNumber)).filter
                (fun n => !s.blocks.covered who n)).head? with
            | none =>
                simp [downloadNew, hl, hc, hst, BlockCollection.neededBlocks, hnb0]
            | some start =>
                simp [downloadNew, hl, hc, hst, BlockCollection.neededBlocks, hnb0,
                  BlockCollection.insertBlocks, lookupA_insertA, hp]
        | ancestorSearch n => simp [downloadNew, hl, hc, hst]
        | downloadingNew n => simp [downloadNew, hl, hc, hst]
        | downloadingStale hh => simp [downloadNew, hl, hc, hst]
        | downloadingJustification hh => simp [downloadNew, hl, hc, hst]

theorem downloadAll_justifications (env : Env) (keys : List PeerId)
    (s : ChainSync) :
    (downloadAll env keys s).1.justifications = s.justifications := by
  induction keys generalizing s with
  | nil => rfl
  | cons k t ih =>
      rw [downloadAll]
      rw [ih, downloadNew_justifications]

theorem downloadAll_peers_fst (env : Env) (keys : List PeerId) (s : ChainSync) :
    (downloadAll env keys s).1.peers.map Prod.fst = s.peers.map Prod.fst := by
  induction keys generalizing s with
  | nil => rfl
  | cons k t ih =>
      rw [downloadAll]
      rw [ih, downloadNew_peers_fst]

theorem downloadAll_effects (env : Env) (keys : List PeerId) (s : ChainSync) :
    ∀ e ∈ (downloadAll env keys s).2, ∃ p br, e = Effect.sendMessage p br := by
  induction keys generalizing s with
  | nil => simp [downloadAll]
  | cons k t ih =>
      intro e he
      rw [downloadAll] at he
      simp only [List.mem_append] at he
      rcases he with he | he
      · exact downloadNew_effects s env k e he
      · exact ih _ e he

theorem downloadAll_lookup (env : Env) (keys : List PeerId) (s : ChainSync)
    (p : PeerId) :
    lookupA (downloadAll env keys s).1.peers p = lookupA s.peers p ∨
      ∃ ps n, lookupA s.peers p = some ps ∧
        ps.state = PeerSyncState.available ∧
        lookupA (downloadAll env keys s).1.peers p =
          some { ps with state := PeerSyncState.downloadingNew n } := by
  induction keys generalizing s with
  | nil => left; rfl
  | cons k t ih =>
      rw [downloadAll]
      rcases downloadNew_lookup s env k p with h1 | ⟨ps, n, h1, h2, h3⟩
      · rcases ih (s.downloadNew env k).1 with h4 | ⟨ps, n, h4, h5, h6⟩
        · left
          rw [h4, h1]
        · right
          exact ⟨ps, n, h1 ▸ h4, h5, h6⟩
      · rcases ih (s.downloadNew env k).1 with h4 | ⟨ps2, n2, h4, h5, h6⟩
        · right
          exact ⟨ps, n, h1, h2, h4.trans h3⟩
        · rw [h3] at h4
          have : ps2.state = PeerSyncState.downloadingNew n := by
            have he : ps2 = { ps with state := PeerSyncState.downloadingNew n } := by
              simpa using h4.symm
            rw [he]
          rw [this] at h5
          simp at h5

theorem downloadAll_blocks_frame (env : Env) (keys : List PeerId)
    (s : ChainSync) (p : PeerId) (hp : p ∉ keys) :
    lookupA (downloadAll env keys s).1.blocks.peerRanges p =
      lookupA s.blocks.peerRanges p := by
  induction keys generalizing s with
  | nil => rfl
  | cons k t ih =>
      rw [downloadAll]
      have hk : k ≠ p := fun hc => hp (hc ▸ List.mem_cons_self _ _)
      rw [ih _ (fun hc => hp (List.mem_cons_of_mem _ hc)),
        downloadNew_blocks_frame _ _ _ _ hk]

theorem maintainSync_peers_fst (s : ChainSync) (env : Env) :
    (s.maintainSync env).1.peers.map Prod.fst = s.peers.map Prod.fst := by
  simp only [maintainSync]
  rw [PendingJustifications.dispatch_peers_fst, downloadAll_peers_fst]

theorem mem_downloadNew_peers {s : ChainSync} {env : Env} {who : PeerId}
    {x : PeerId × PeerSync} (h : x ∈ (s.downloadNew env who).1.peers) :
    ∃ y ∈ s.peers, x.1 = y.1 ∧ x.2.commonNumber = y.2.commonNumber ∧
      x.2.bestNumber = y.2.bestNumber ∧
      (x.2.state = y.2.state ∨ ∃ n, x.2.state = PeerSyncState.downloadingNew n) := by
  have triv : x ∈ s.peers →
      ∃ y ∈ s.peers, x.1 = y.1 ∧ x.2.commonNumber = y.2.commonNumber ∧
        x.2.bestNumber = y.2.bestNumber ∧
        (x.2.state = y.2.state ∨ ∃ n, x.2.state = PeerSyncState.downloadingNew n) :=
    fun hm => ⟨x, hm, rfl, rfl, rfl, Or.inl rfl⟩
  cases hl : lookupA s.peers who with
  | none => exact triv (by simpa [downloadNew, hl] using h)
  | some peer =>
      by_cases hc : MAX_IMPORTING_BLOCKS < env.importingCount
      · exact triv (by simpa [downloadNew, hl, hc] using h)
      · cases hst : peer.state with
        | available =>
            cases hnb : s.blocks.neededBlocks who MAX_BLOCKS_TO_REQUEST
                peer.bestNumber peer.commonNumber with
            | mk rng bc =>
                cases rng with
                | none => exact triv (by simpa [downloadNew, hl, hc, hst, hnb] using h)
                | some range =>
                    have h2 : x ∈ updateA s.peers who (fun p =>
                        { p with state := PeerSyncState.downloadingNew range.1 }) := by
                      simpa [downloadNew, hl, hc, hst, hnb] using h
                    rcases mem_updateA h2 with ⟨y, hy, g1, g2⟩
                    refine ⟨y, hy, g1, ?_, ?_, ?_⟩
                    · rcases g2 with g2 | g2 <;> rw [g2]
                    · rcases g2 with g2 | g2 <;> rw [g2]
                    · rcases g2 with g2 | g2
                      · rw [g2]
                        exact Or.inl rfl
                      · rw [g2]
                        exact Or.inr ⟨range.1, rfl⟩
        | ancestorSearch n => exact triv (by simpa [downloadNew, hl, hc, hst] using h)
        | downloadingNew n => exact triv (by simpa [downloadNew, hl, hc, hst] using h)
        | downloadingStale hh => exact triv (by simpa [downloadNew, hl, hc, hst] using h)
        | downloadingJustification hh =>
            exact triv (by simpa [downloadNew, hl, hc, hst] using h)

theorem mem_downloadAll_peers {env : Env} {keys : List PeerId} {s : ChainSync}
    {x : PeerId × PeerSync} (h : x ∈ (downloadAll env keys s).1.peers) :
    ∃ y ∈ s.peers, x.1 = y.1 ∧ x.2.commonNumber = y.2.commonNumber ∧
      x.2.bestNumber = y.2.bestNumber ∧
      (x.2.state = y.2.state ∨ ∃ n, x.2.state = PeerSyncState.downloadingNew n) := by
  induction keys generalizing s with
  | nil => exact ⟨x, h, rfl, rfl, rfl, Or.inl rfl⟩
  | cons k t ih =>
      rw [downloadAll] at h
      rcases ih h with ⟨y, hy, g1, g2, g3, g4⟩
      rcases mem_downloadNew_peers hy with ⟨z, hz, f1, f2, f3, f4⟩
      refine ⟨z, hz, g1.trans f1, g2.trans f2, g3.trans f3, ?_⟩
      rcases g4 with g4 | g4
      · rcases f4 with f4 | f4
        · exact Or.inl (g4.trans f4)
        · exact Or.inr (g4 ▸ f4)
      · exact Or.inr g4

theorem mem_maintainSync_peers {s : ChainSync} {env : Env}
    {x : PeerId × PeerSync} (h : x ∈ (s.maintainSync env).1.peers) :
    ∃ y ∈ s.peers, x.1 = y.1 ∧ x.2.commonNumber = y.2.commonNumber ∧
      x.2.bestNumber = y.2.bestNumber ∧
      (x.2.state = y.2.state ∨ (∃ n, x.2.state = PeerSyncState.downloadingNew n) ∨
        ∃ hh, x.2.state = PeerSyncState.downloadingJustification hh) := by
  simp only [maintainSync] at h
  rcases PendingJustifications.mem_dispatch_peers h with ⟨y, hy, g1, g2, g3, g4⟩
  rcases mem_downloadAll_peers hy with ⟨z, hz, f1, f2, f3, f4⟩
  refine ⟨z, hz, g1.trans f1, g2.trans f2, g3.trans f3, ?_⟩
  rcases g4 with g4 | g4
  · rcases f4 with f4 | f4
    · exact Or.inl (g4.trans f4)
    · exact Or.inr (Or.inl (g4 ▸ f4))
  · exact Or.inr (Or.inr g4)

theorem maintainSync_lookup_peers_none {s : ChainSync} {env : Env} {p : PeerId}
    (h : lookupA s.peers p = none) :
    lookupA (s.maintainSync env).1.peers p = none := by
  rw [lookupA_eq_none_iff, maintainSync_peers_fst]
  rwa [lookupA_eq_none_iff] at h

theorem maintainSync_einv {s : ChainSync} {env : Env}
    (hnd : (s.peers.map Prod.fst).Nodup)
    (hold : ∀ e ∈ s.justifications.peerRequests,
      (lookupA s.peers e.1).map PeerSync.state =
        some (PeerSyncState.downloadingJustification e.2.1)) :
    ∀ e ∈ (s.maintainSync env).1.justifications.peerRequests,
      (lookupA (s.maintainSync env).1.peers e.1).map PeerSync.state =
        some (PeerSyncState.downloadingJustification e.2.1) := by
  simp only [maintainSync]
  apply PendingJustifications.dispatch_einv
  · rw [downloadAll_peers_fst]
    exact hnd
  · rw [downloadAll_justifications]
    intro e he
    rcases downloadAll_lookup env (s.peers.map Prod.fst) s e.1 with h1 | ⟨ps, n, h1, h2, _⟩
    · rw [h1]
      exact hold e he
    · have := hold e he
      rw [h1] at this
      simp [h2] at this

theorem maintainSync_pending_conserve {s : ChainSync} {env : Env} {r : Req}
    (hnd : (s.peers.map Prod.fst).Nodup)
    (h : r ∈ s.justifications.pendingRequests) :
    r ∈ (s.maintainSync env).1.justifications.pendingRequests ∨
      ∃ q, lookupA (s.maintainSync env).1.justifications.peerRequests q = some r := by
  simp only [maintainSync]
  apply PendingJustifications.dispatch_conserve
  · rw [downloadAll_peers_fst]
    exact hnd
  · rw [downloadAll_justifications]
    exact h

theorem maintainSync_peerRequests_none {s : ChainSync} {env : Env} {p : PeerId}
    (hb : lookupA s.justifications.peerRequests p = none)
    (hnp : p ∉ s.peers.map Prod.fst) :
    lookupA (s.maintainSync env).1.justifications.peerRequests p = none := by
  simp only [maintainSync]
  apply PendingJustifications.dispatch_peerRequests_frame
  · rw [downloadAll_justifications]
    exact hb
  · rw [downloadAll_peers_fst]
    exact hnp

theorem maintainSync_blocks_frame {s : ChainSync} {env : Env} {p : PeerId}
    (hnp : p ∉ s.peers.map Prod.fst) :
    lookupA (s.maintainSync env).1.blocks.peerRanges p =
      lookupA s.blocks.peerRanges p := by
  simp only [maintainSync]
  exact downloadAll_blocks_frame env _ s p hnp

theorem maintainSync_effects (s : ChainSync) (env : Env) :
    ∀ e ∈ (s.maintainSync env).2, ∃ p br, e = Effect.sendMessage p br := by
  simp only [maintainSync]
  intro e he
  rcases List.mem_append.mp he with h1 | h1
  · exact downloadAll_effects env _ s e h1
  · rcases PendingJustifications.dispatch_effects e h1 with ⟨p, hh, hpe⟩
    exact ⟨p, _, hpe⟩

theorem downloadStale_common (s : ChainSync) (who : PeerId) (h : Hash)
    (p : PeerId) :
    (lookupA (s.downloadStale who h).1.peers p).map PeerSync.commonNumber =
      (lookupA s.peers p).map PeerSync.commonNumber := by
  cases hl : lookupA s.peers who with
  | none => simp [downloadStale, hl]
  | some peer =>
      cases hst : peer.state with
      | available =>
          by_cases hp : who = p
          · subst hp
            simp [downloadStale, hl, hst, lookupA_updateA]
          · simp [downloadStale, hl, hst, lookupA_updateA, hp]
      | ancestorSearch m => simp [downloadStale, hl, hst]
      | downloadingNew m => simp [downloadStale, hl, hst]
      | downloadingStale hh => simp [downloadStale, hl, hst]
      | downloadingJustification hh => simp [downloadStale, hl, hst]

theorem downloadUnknownStale_common (s : ChainSync) (who : PeerId) (h : Hash)
    (p : PeerId) :
    (lookupA (s.downloadUnknownStale who h).1.peers p).map PeerSync.commonNumber =
      (lookupA s.peers p).map PeerSync.commonNumber := by
  cases hl : lookupA s.peers who with
  | none => simp [downloadUnknownStale, hl]
  | some peer =>
      cases hst : peer.state with
      | available =>
          by_cases hp : who = p
          · subst hp
            simp [downloadUnknownStale, hl, hst, lookupA_updateA]
          · simp [downloadUnknownStale, hl, hst, lookupA_updateA, hp]
      | ancestorSearch m => simp [downloadUnknownStale, hl, hst]
      | downloadingNew m => simp [downloadUnknownStale, hl, hst]
      | downloadingStale hh => simp [downloadUnknownStale, hl, hst]
      | downloadingJustification hh => simp [downloadUnknownStale, hl, hst]

theorem downloadNew_common (s : ChainSync) (env : Env) (who p : PeerId) :
    (lookupA (s.downloadNew env who).1.peers p).map PeerSync.commonNumber =
      (lookupA s.peers p).map PeerSync.commonNumber := by
  rcases downloadNew_lookup s env who p with h1 | ⟨ps, n, h1, _, h3⟩
  · rw [h1]
  · rw [h1, h3]
    rfl

theorem announceDecision_common (s1 : ChainSync) (env : Env) (who : PeerId)
    (h : Hash) (header : Header) (known knownParent : Bool) (p : PeerId) :
    (lookupA (announceDecision s1 env who h header known knownParent).1.peers
        p).map PeerSync.commonNumber =
      (lookupA s1.peers p).map PeerSync.commonNumber := by
  unfold announceDecision
  by_cases h1 : (!(known || s1.isAlreadyDownloading h)) = true
  · rw [if_pos (by simpa using h1)]
    by_cases h2 : header.number ≤ s1.bestQueuedNumber
    · rw [if_pos h2]
      by_cases h3 : (!(knownParent || s1.isAlreadyDownloading header.parentHash)) = true
      · rw [if_pos (by simpa using h3)]
        exact downloadUnknownStale_common s1 who h p
      · rw [if_neg (by simpa using h3)]
        exact downloadStale_common s1 who h p
    · rw [if_neg h2]
      exact downloadNew_common s1 env who p
  · rw [if_neg (by simpa using h1)]

theorem downloadNew_skip {s : ChainSync} {env : Env} {who : PeerId}
    (h : MAX_IMPORTING_BLOCKS < env.importingCount) :
    s.downloadNew env who = (s, []) := by
  cases hl : lookupA s.peers who with
  | none => simp [downloadNew, hl]
  | some peer => simp [downloadNew, hl, h]

theorem downloadAll_backpressure {env : Env} {keys : List PeerId} {s : ChainSync}
    (h : MAX_IMPORTING_BLOCKS < env.importingCount) :
    downloadAll env keys s = (s, []) := by
  induction keys with
  | nil => rfl
  | cons k t ih =>
      rw [downloadAll, downloadNew_skip h, ih]
      simp

/-! Preservation of the justification in-flight invariant. -/

theorem downloadStale_peers_fst (s : ChainSync) (who : PeerId) (h : Hash) :
    (s.downloadStale who h).1.peers.map Prod.fst = s.peers.map Prod.fst := by
  cases hl : lookupA s.peers who with
  | none => simp [downloadStale, hl]
  | some peer =>
      cases hst : peer.state <;>
        simp [downloadStale, hl, hst, map_fst_updateA]

theorem downloadUnknownStale_peers_fst (s : ChainSync) (who : PeerId)
    (h : Hash) :
    (s.downloadUnknownStale who h).1.peers.map Prod.fst =
      s.peers.map Prod.fst := by
  cases hl : lookupA s.peers who with
  | none => simp [downloadUnknownStale, hl]
  | some peer =>
      cases hst : peer.state <;>
        simp [downloadUnknownStale, hl, hst, map_fst_updateA]

theorem announceDecision_peers_fst (s1 : ChainSync) (env : Env) (who : PeerId)
    (h : Hash) (header : Header) (known knownParent : Bool) :
    (announceDecision s1 env who h header known knownParent).1.peers.map
        Prod.fst = s1.peers.map Prod.fst := by
  unfold announceDecision
  by_cases h1 : (!(known || s1.isAlreadyDownloading h)) = true
  · rw [if_pos (by simpa using h1)]
    by_cases h2 : header.number ≤ s1.bestQueuedNumber
    · rw [if_pos h2]
      by_cases h3 : (!(knownParent || s1.isAlreadyDownloading header.parentHash)) = true
      · rw [if_pos (by simpa using h3)]
        exact downloadUnknownStale_peers_fst s1 who h
      · rw [if_neg (by simpa using h3)]
        exact downloadStale_peers_fst s1 who h
    · rw [if_neg h2]
      exact downloadNew_peers_fst s1 env who
  · rw [if_neg (by simpa using h1)]

theorem downloadStale_preserves_dj {s : ChainSync} {who p : PeerId} {h hh : Hash}
    (hp : (lookupA s.peers p).map PeerSync.state =
      some (PeerSyncState.downloadingJustification hh)) :
    (lookupA (s.downloadStale who h).1.peers p).map PeerSync.state =
      some (PeerSyncState.downloadingJustification hh) := by
  cases hl : lookupA s.peers who with
  | none => simpa [downloadStale, hl] using hp
  | some peer =>
      cases hst : peer.state with
      | available =>
          by_cases hq : who = p
          · subst hq
            rw [hl] at hp
            simp [hst] at hp
          · simpa [downloadStale, hl, hst, lookupA_updateA, hq] using hp
      | ancestorSearch m => simpa [downloadStale, hl, hst] using hp
      | downloadingNew m => simpa [downloadStale, hl, hst] using hp
      | downloadingStale h2 => simpa [downloadStale, hl, hst] using hp
      | downloadingJustification h2 => simpa [downloadStale, hl, hst] using hp

theorem downloadUnknownStale_preserves_dj {s : ChainSync} {who p : PeerId}
    {h hh : Hash}
    (hp : (lookupA s.peers p).map PeerSync.state =
      some (PeerSyncState.downloadingJustification hh)) :
    (lookupA (s.downloadUnknownStale who h).1.peers p).map PeerSync.state =
      some (PeerSyncState.downloadingJustification hh) := by
  cases hl : lookupA s.peers who with
  | none => simpa [downloadUnknownStale, hl] using hp
  | some peer =>
      cases hst : peer.state with
      | available =>
          by_cases hq : who = p
          · subst hq
            rw [hl] at hp
            simp [hst] at hp
          · simpa [downloadUnknownStale, hl, hst, lookupA_updateA, hq] using hp
      | ancestorSearch m => simpa [downloadUnknownStale, hl, hst] using hp
      | downloadingNew m => simpa [downloadUnknownStale, hl, hst] using hp
      | downloadingStale h2 => simpa [downloadUnknownStale, hl, hst] using hp
      | downloadingJustification h2 => simpa [downloadUnknownStale, hl, hst] using hp

theorem downloadNew_preserves_dj {s : ChainSync} {env : Env} {who p : PeerId}
    {hh : Hash}
    (hp : (lookupA s.peers p).map PeerSync.state =
      some (PeerSyncState.downloadingJustification hh)) :
    (lookupA (s.downloadNew env who).1.peers p).map PeerSync.state =
      some (PeerSyncState.downloadingJustification hh) := by
  rcases downloadNew_lookup s env who p with h1 | ⟨ps, n, h1, h2, h3⟩
  · rw [h1]
    exact hp
  · rw [h1] at hp
    simp [h2] at hp

theorem announceDecision_preserves_dj {s1 : ChainSync} {env : Env}
    {who : PeerId} {h : Hash} {header : Header} {known knownParent : Bool}
    {p : PeerId} {hh : Hash}
    (hp : (lookupA s1.peers p).map PeerSync.state =
      some (PeerSyncState.downloadingJustification hh)) :
    (lookupA (announceDecision s1 env who h header known knownParent).1.peers
        p).map PeerSync.state =
      some (PeerSyncState.downloadingJustification hh) := by
  unfold announceDecision
  by_cases h1 : (!(known || s1.isAlreadyDownloading h)) = true
  · rw [if_pos (by simpa using h1)]
    by_cases h2 : header.number ≤ s1.bestQueuedNumber
    · rw [if_pos h2]
      by_cases h3 : (!(knownParent || s1.isAlreadyDownloading header.parentHash)) = true
      · rw [if_pos (by simpa using h3)]
        exact downloadUnknownStale_preserves_dj hp
      · rw [if_neg (by simpa using h3)]
        exact downloadStale_preserves_dj hp
    · rw [if_neg h2]
      exact downloadNew_preserves_dj hp
  · rw [if_neg (by simpa using h1)]
    exact hp

theorem blockQueued_lookup (s : ChainSync) (h : Hash) (number : Nat)
    (p : PeerId) :
    lookupA (s.blockQueued h number).peers p =
      (lookupA s.peers p).map (fun q =>
        let q2 := match q.state with
          | PeerSyncState.ancestorSearch _ =>
              { q with state := PeerSyncState.available }
          | _ => q
        if number ≤ q2.bestNumber then { q2 with commonNumber := number }
        else { q2 with commonNumber := q2.bestNumber }) := by
  have hpeers : (s.blockQueued h number).peers =
      s.peers.map (fun pp =>
        (pp.1,
          let q := pp.2
          let q := match q.state with
            | PeerSyncState.ancestorSearch _ =>
                { q with state := PeerSyncState.available }
            | _ => q
          if number ≤ q.bestNumber then { q with commonNumber := number }
          else { q with commonNumber := q.bestNumber })) := by
    by_cases hbq : s.bestQueuedNumber < number <;> simp [blockQueued, hbq]
  rw [hpeers]
  induction s.peers with
  | nil => rfl
  | cons e t ih =>
      by_cases hk : e.1 = p
      · simp [lookupA, hk]
      · simpa [lookupA, hk] using ih

theorem blockQueued_preserves_dj {s : ChainSync} {h : Hash} {number : Nat}
    {p : PeerId} {hh : Hash}
    (hp : (lookupA s.peers p).map PeerSync.state =
      some (PeerSyncState.downloadingJustification hh)) :
    (lookupA (s.blockQueued h number).peers p).map PeerSync.state =
      some (PeerSyncState.downloadingJustification hh) := by
  rw [blockQueued_lookup]
  cases hlk : lookupA s.peers p with
  | none =>
      rw [hlk] at hp
      simp at hp
  | some ps =>
      rw [hlk] at hp
      have hst : ps.state = PeerSyncState.downloadingJustification hh := by
        simpa using hp
      by_cases hle : number ≤ ps.bestNumber <;> simp [hst, hle]

theorem blockQueued_peers_fst (s : ChainSync) (h : Hash) (number : Nat) :
    (s.blockQueued h number).peers.map Prod.fst = s.peers.map Prod.fst := by
  have hpeers : (s.blockQueued h number).peers =
      s.peers.map (fun pp =>
        (pp.1,
          let q := pp.2
          let q := match q.state with
            | PeerSyncState.ancestorSearch _ =>
                { q with state := PeerSyncState.available }
            | _ => q
          if number ≤ q.bestNumber then { q with commonNumber := number }
          else { q with commonNumber := q.bestNumber })) := by
    by_cases hbq : s.bestQueuedNumber < number <;> simp [blockQueued, hbq]
  rw [hpeers, List.map_map]
  rfl

theorem downloadStale_justifications (s : ChainSync) (who : PeerId)
    (h : Hash) :
    (s.downloadStale who h).1.justifications = s.justifications := by
  cases hl : lookupA s.peers who with
  | none => simp [downloadStale, hl]
  | some peer => cases hst : peer.state <;> simp [downloadStale, hl, hst]

theorem downloadUnknownStale_justifications (s : ChainSync) (who : PeerId)
    (h : Hash) :
    (s.downloadUnknownStale who h).1.justifications = s.justifications := by
  cases hl : lookupA s.peers who with
  | none => simp [downloadUnknownStale, hl]
  | some peer => cases hst : peer.state <;> simp [downloadUnknownStale, hl, hst]

theorem announceDecision_justifications (s1 : ChainSync) (env : Env)
    (who : PeerId) (h : Hash) (header : Header) (known knownParent : Bool) :
    (announceDecision s1 env who h header known knownParent).1.justifications =
      s1.justifications := by
  unfold announceDecision
  by_cases h1 : (!(known || s1.isAlreadyDownloading h)) = true
  · rw [if_pos (by simpa using h1)]
    by_cases h2 : header.number ≤ s1.bestQueuedNumber
    · rw [if_pos h2]
      by_cases h3 : (!(knownParent || s1.isAlreadyDownloading header.parentHash)) = true
      · rw [if_pos (by simpa using h3)]
        exact downloadUnknownStale_justifications s1 who h
      · rw [if_neg (by simpa using h3)]
        exact downloadStale_justifications s1 who h
    · rw [if_neg h2]
      exact downloadNew_justifications s1 env who
  · rw [if_neg (by simpa using h1)]

/-- A peer whose state is not `DownloadingJustification` has no entry in
the in-flight map, provided the invariant holds. -/
theorem no_entry_of_state {s : ChainSync} {who : PeerId} {ps : PeerSync}
    (hinv : JustInvariant s) (hl : lookupA s.peers who = some ps)
    (hnd : ∀ hh, ps.state ≠ PeerSyncState.downloadingJustification hh) :
    ∀ r, (who, r) ∉ s.justifications.peerRequests := by
  intro r hmem
  have h2 := hinv.2 (who, r) hmem
  rw [hl] at h2
  simp at h2
  exact hnd r.1 h2

theorem jinv_update_who {s : ChainSync} {who : PeerId} {f : PeerSync → PeerSync}
    (hinv : JustInvariant s)
    (hno : ∀ r, (who, r) ∉ s.justifications.peerRequests) :
    JustInvariant { s with peers := updateA s.peers who f } := by
  constructor
  · rw [map_fst_updateA]
    exact hinv.1
  · intro e he
    have hne : ¬ who = e.1 := by
      intro hc
      refine hno e.2 ?_
      rw [hc]
      simpa using he
    rw [lookupA_updateA, if_neg hne]
    exact hinv.2 e he

theorem jinv_maintainSync {s : ChainSync} {env : Env}
    (hinv : JustInvariant s) : JustInvariant (s.maintainSync env).1 := by
  constructor
  · rw [maintainSync_peers_fst]
    exact hinv.1
  · exact maintainSync_einv hinv.1 hinv.2

theorem blockQueued_justifications (s : ChainSync) (h : Hash)
    (number : Nat) :
    (s.blockQueued h number).justifications = s.justifications := by
  by_cases hq : s.bestQueuedNumber < number <;> simp [blockQueued, hq]

theorem jinv_blockQueued {s : ChainSync} (h : Hash) (number : Nat)
    (hinv : JustInvariant s) : JustInvariant (s.blockQueued h number) := by
  constructor
  · rw [blockQueued_peers_fst]
    exact hinv.1
  · intro e he
    rw [blockQueued_justifications] at he
    exact blockQueued_preserves_dj (hinv.2 e he)

theorem jinv_onBlockDataTail {s : ChainSync} {env : Env}
    {newBlocks : List IncomingBlock} (hinv : JustInvariant s) :
    JustInvariant (s.onBlockDataTail env newBlocks).1 := by
  unfold onBlockDataTail
  cases hgl : newBlocks.getLast? with
  | none =>
      simp only [hgl]
      exact jinv_maintainSync hinv
  | some b =>
      cases hbh : b.header with
      | none =>
          simp only [hgl, hbh]
          exact jinv_maintainSync hinv
      | some hd =>
          simp only [hgl, hbh]
          exact jinv_maintainSync (jinv_blockQueued _ _ hinv)

theorem jinv_tick {s : ChainSync} {env : Env} (hinv : JustInvariant s) :
    JustInvariant (s.tick env).1 := by
  simp only [tick]
  constructor
  · rw [PendingJustifications.dispatch_peers_fst]
    exact hinv.1
  · exact PendingJustifications.dispatch_einv hinv.1 hinv.2

theorem queueRequest_peerRequests (pj : PendingJustifications) (r : Req) :
    (pj.queueRequest r).peerRequests = pj.peerRequests := by
  by_cases hc : r ∈ pj.justifications <;>
    simp [PendingJustifications.queueRequest, hc]

theorem jinv_requestJustification {s : ChainSync} {h : Hash} {number : Nat}
    {env : Env} (hinv : JustInvariant s) :
    JustInvariant (s.requestJustification h number env).1 := by
  simp only [requestJustification]
  constructor
  · rw [PendingJustifications.dispatch_peers_fst]
    exact hinv.1
  · apply PendingJustifications.dispatch_einv hinv.1
    rw [queueRequest_peerRequests]
    exact hinv.2

theorem jinv_blockFinalized {s : ChainSync} (number : Nat)
    (hinv : JustInvariant s) : JustInvariant (s.blockFinalized number) := by
  refine ⟨hinv.1, ?_⟩
  intro e he
  exact hinv.2 e (List.mem_filter.mp he).1

theorem onResponse_peerRequests (pj : PendingJustifications) (who : PeerId)
    (j : Option Justification) (env : Env) :
    (pj.onResponse who j env).1.peerRequests = eraseA pj.peerRequests who ∨
      ((pj.onResponse who j env).1 = pj ∧
        lookupA pj.peerRequests who = none) := by
  cases hpr : lookupA pj.peerRequests who with
  | none =>
      right
      exact ⟨by simp [PendingJustifications.onResponse, hpr], rfl⟩
  | some req =>
      left
      cases j with
      | none => simp [PendingJustifications.onResponse, hpr]
      | some jv =>
          by_cases himp : env.importJustification req.1 req.2 jv = true <;>
            simp [PendingJustifications.onResponse, hpr, himp]

theorem jinv_peerDisconnected {s : ChainSync} {env : Env} {who : PeerId}
    (hinv : JustInvariant s) : JustInvariant (s.peerDisconnected env who).1 := by
  simp only [ChainSync.peerDisconnected]
  apply jinv_maintainSync
  constructor
  · exact nodup_fst_eraseA who hinv.1
  · intro e he
    have hsub : e ∈ s.justifications.peerRequests ∧ e.1 ≠ who := by
      cases hpr : lookupA s.justifications.peerRequests who with
      | none =>
          have he2 : e ∈ s.justifications.peerRequests := by
            simpa [PendingJustifications.peerDisconnected, hpr] using he
          refine ⟨he2, ?_⟩
          intro hc
          exact lookupA_eq_none_not_mem hpr (by rw [← hc]; simpa using he2)
      | some r =>
          have he2 : e ∈ eraseA s.justifications.peerRequests who := by
            simpa [PendingJustifications.peerDisconnected, hpr] using he
          exact ⟨(mem_eraseA he2).1, (mem_eraseA he2).2⟩
    rw [lookupA_eraseA, if_neg (fun hc => hsub.2 hc.symm)]
    exact hinv.2 e hsub.1

theorem jinv_of_eq {s t : ChainSync} (hp : t.peers = s.peers)
    (hj : t.justifications = s.justifications) (hinv : JustInvariant s) :
    JustInvariant t := by
  constructor
  · rw [hp]
    exact hinv.1
  · intro e he
    rw [hj] at he
    rw [hp]
    exact hinv.2 e he

theorem jinv_insert_who {s : ChainSync} {who : PeerId} {p : PeerSync}
    (hinv : JustInvariant s)
    (hno : ∀ r, (who, r) ∉ s.justifications.peerRequests) :
    JustInvariant { s with peers := insertA s.peers who p } := by
  constructor
  · exact nodup_fst_insertA _ _ hinv.1
  · intro e he
    obtain ⟨a, r⟩ := e
    have hne : ¬ who = a := by
      intro hc
      exact hno r (hc ▸ he)
    rw [lookupA_insertA, if_neg hne]
    exact hinv.2 (a, r) he

theorem jinv_downloadNew {s : ChainSync} {env : Env} {who : PeerId}
    (hinv : JustInvariant s) : JustInvariant (s.downloadNew env who).1 := by
  constructor
  · rw [downloadNew_peers_fst]
    exact hinv.1
  · intro e he
    rw [downloadNew_justifications] at he
    exact downloadNew_preserves_dj (hinv.2 e he)

theorem jinv_newPeer {s : ChainSync} {env : Env} {who : PeerId}
    {info : Option (Hash × Nat)}
    (hinv : JustInvariant s)
    (hno : ∀ r, (who, r) ∉ s.justifications.peerRequests) :
    JustInvariant (s.newPeer env who info).1 := by
  cases info with
  | none => exact hinv
  | some bi =>
      obtain ⟨bestHash, bestNumber⟩ := bi
      cases hbs : blockStatus env bestHash with
      | error e =>
          simp only [newPeer, hbs]
          exact hinv
      | ok st =>
          cases st with
          | knownBad =>
              simp only [newPeer, hbs]
              exact hinv
          | queued =>
              simp only [newPeer, hbs]
              exact jinv_insert_who hinv hno
          | inChain =>
              simp only [newPeer, hbs]
              exact jinv_insert_who hinv hno
          | unknown =>
              simp only [newPeer, hbs]
              by_cases h0 : bestNumber = 0
              · simp only [h0, if_true]
                exact hinv
              · rw [if_neg h0]
                by_cases hmaj : MAJOR_SYNC_BLOCKS < env.importingCount
                · rw [if_pos hmaj]
                  exact jinv_insert_who hinv hno
                · rw [if_neg hmaj]
                  by_cases hq : 0 < s.bestQueuedNumber
                  · rw [if_pos hq]
                    exact jinv_insert_who hinv hno
                  · rw [if_neg hq]
                    exact jinv_downloadNew (jinv_insert_who hinv hno)

theorem jinv_onBlockData {s : ChainSync} {env : Env} {who : PeerId}
    {request : BlockRequest} {response : List BlockData}
    (hinv : JustInvariant s) :
    JustInvariant (s.onBlockData env who request response).1 := by
  cases hl : lookupA s.peers who with
  | none =>
      simp only [onBlockData, hl]
      exact jinv_onBlockDataTail hinv
  | some peer =>
      cases hst : peer.state with
      | available =>
          simp only [onBlockData, hl, hst]
          exact jinv_onBlockDataTail hinv
      | downloadingJustification h =>
          simp only [onBlockData, hl, hst]
          exact jinv_onBlockDataTail hinv
      | downloadingNew startBlock =>
          have hno := no_entry_of_state hinv hl (by simp [hst])
          simp only [onBlockData, hl, hst]
          exact jinv_onBlockDataTail (jinv_of_eq rfl rfl (jinv_update_who hinv hno))
      | downloadingStale h =>
          have hno := no_entry_of_state hinv hl (by simp [hst])
          simp only [onBlockData, hl, hst]
          exact jinv_onBlockDataTail (jinv_of_eq rfl rfl (jinv_update_who hinv hno))
      | ancestorSearch n =>
          have hno := no_entry_of_state hinv hl (by simp [hst])
          simp only [onBlockData, hl, hst]
          cases hhd : (responseBlocks request response).head? with
          | none =>
              simp only [hhd]
              exact hinv
          | some block =>
              simp only [hhd]
              cases hch : env.clientBlockHash n with
              | error e =>
                  simp only [hch]
                  exact hinv
              | ok bh =>
                  cases bh with
                  | none =>
                      simp only [hch]
                      by_cases hn : 0 < n
                      · rw [if_pos hn]
                        exact jinv_of_eq rfl rfl (jinv_update_who hinv hno)
                      · rw [if_neg hn]
                        exact hinv
                  | some blockHash =>
                      simp only [hch]
                      by_cases hbh : blockHash = block.hash
                      · rw [if_pos hbh]
                        exact jinv_onBlockDataTail
                          (jinv_of_eq rfl rfl (jinv_update_who hinv hno))
                      · rw [if_neg hbh]
                        by_cases hn : 0 < n
                        · rw [if_pos hn]
                          exact jinv_of_eq rfl rfl (jinv_update_who hinv hno)
                        · rw [if_neg hn]
                          exact hinv

theorem jinv_after_response {s : ChainSync} {who : PeerId}
    {j : Option Justification} {env : Env} (hinv : JustInvariant s) :
    JustInvariant
      { s with
          peers := updateA s.peers who
            (fun p => { p with state := PeerSyncState.available })
          justifications := (s.justifications.onResponse who j env).1 } := by
  constructor
  · show ((updateA s.peers who _).map Prod.fst).Nodup
    rw [map_fst_updateA]
    exact hinv.1
  · intro e he
    obtain ⟨a, r⟩ := e
    have he2 : (a, r) ∈ (s.justifications.onResponse who j env).1.peerRequests := he
    show (lookupA (updateA s.peers who _) a).map PeerSync.state = _
    rcases onResponse_peerRequests s.justifications who j env with hcase | hcase
    · rw [hcase] at he2
      have h1 := mem_eraseA he2
      rw [lookupA_updateA, if_neg (fun hc => h1.2 hc.symm)]
      exact hinv.2 (a, r) h1.1
    · rw [hcase.1] at he2
      have hne : ¬ who = a := by
        intro hc
        exact lookupA_eq_none_not_mem hcase.2 (by rw [hc]; exact he2)
      rw [lookupA_updateA, if_neg hne]
      exact hinv.2 (a, r) he2

theorem jinv_onBlockJustificationData {s : ChainSync} {env : Env}
    {who : PeerId} {response : List BlockData}
    (hinv : JustInvariant s)
    (hg : goodJustResponse s who response = true) :
    JustInvariant (s.onBlockJustificationData env who response).1 := by
  cases hl : lookupA s.peers who with
  | none =>
      simp only [onBlockJustificationData, hl]
      exact jinv_maintainSync hinv
  | some peer =>
      cases hst : peer.state with
      | available =>
          simp only [onBlockJustificationData, hl, hst]
          exact jinv_maintainSync hinv
      | downloadingNew n =>
          simp only [onBlockJustificationData, hl, hst]
          exact jinv_maintainSync hinv
      | downloadingStale h =>
          simp only [onBlockJustificationData, hl, hst]
          exact jinv_maintainSync hinv
      | ancestorSearch n =>
          simp only [onBlockJustificationData, hl, hst]
          exact jinv_maintainSync hinv
      | downloadingJustification h =>
          cases hhd : response.head? with
          | none =>
              exact absurd hg (by simp [goodJustResponse, hl, hst, hhd])
          | some b =>
              have hbh : h = b.hash := by
                have := hg
                simp only [goodJustResponse, hl, hst, hhd] at this
                exact of_decide_eq_true this
              simp only [onBlockJustificationData, hl, hst, hhd]
              rw [if_neg (by simp [hbh])]
              exact jinv_maintainSync (jinv_of_eq rfl rfl (jinv_after_response hinv))

theorem jinv_insert_announce {s : ChainSync} {env : Env} {who : PeerId}
    {h : Hash} {header : Header} {known knownParent : Bool} {peer3 : PeerSync}
    (hinv : JustInvariant s)
    (hpres : ∀ r, (who, r) ∈ s.justifications.peerRequests →
      peer3.state = PeerSyncState.downloadingJustification r.1) :
    JustInvariant (announceDecision { s with peers := insertA s.peers who peer3 }
      env who h header known knownParent).1 := by
  constructor
  · rw [announceDecision_peers_fst]
    exact nodup_fst_insertA _ _ hinv.1
  · intro e he
    obtain ⟨a, r⟩ := e
    rw [announceDecision_justifications] at he
    have he2 : (a, r) ∈ s.justifications.peerRequests := he
    apply announceDecision_preserves_dj
    show (lookupA (insertA s.peers who _) a).map PeerSync.state = _
    rw [lookupA_insertA]
    by_cases hw : who = a
    · rw [if_pos hw]
      have h3 := hpres r (by rw [hw]; exact he2)
      simp [h3]
    · rw [if_neg hw]
      exact hinv.2 (a, r) he2

theorem jinv_onBlockAnnounce {s : ChainSync} {env : Env} {who : PeerId}
    {h : Hash} {header : Header} (hinv : JustInvariant s) :
    JustInvariant (s.onBlockAnnounce env who h header).1 := by
  by_cases h0 : header.number ≤ 0
  · simp only [onBlockAnnounce, h0, if_true]
    exact hinv
  · cases hl : lookupA s.peers who with
    | none =>
        simp only [onBlockAnnounce, h0, if_false, hl]
        exact hinv
    | some peer0 =>
        by_cases hb : peer0.bestNumber < header.number <;>
          cases hst : peer0.state <;>
          simp only [onBlockAnnounce, h0, if_false, hl, hb, if_true, hst]
        case pos.ancestorSearch n =>
          exact jinv_insert_who hinv (no_entry_of_state hinv hl (by simp [hst]))
        case neg.ancestorSearch n =>
          exact jinv_insert_who hinv (no_entry_of_state hinv hl (by simp [hst]))
        case pos.downloadingJustification hh =>
          apply jinv_insert_announce hinv
          intro r hr
          have h2 := hinv.2 (who, r) hr
          rw [hl] at h2
          simp only [Option.map_some', Option.some.injEq] at h2
          rw [hst] at h2
          simp only [apply_ite PeerSync.state, ite_self]
          exact h2
        case neg.downloadingJustification hh =>
          apply jinv_insert_announce hinv
          intro r hr
          have h2 := hinv.2 (who, r) hr
          rw [hl] at h2
          simp only [Option.map_some', Option.some.injEq] at h2
          rw [hst] at h2
          simp only [apply_ite PeerSync.state, ite_self]
          exact h2
        all_goals
          apply jinv_insert_announce hinv
        all_goals
          intro r hr
        all_goals
          exact absurd hr (no_entry_of_state hinv hl (by simp [hst]) r)

/-! Preservation of the per-peer number invariant. -/

theorem peerNumOk_transfer {x y : PeerSync}
    (hc : x.commonNumber = y.commonNumber) (hb : x.bestNumber = y.bestNumber)
    (hs : x.state = y.state ∨ isAncestorSearch x.state = false)
    (hy : peerNumOk y) : peerNumOk x := by
  constructor
  · rw [hc, hb]
    exact hy.1
  · cases hxs : x.state with
    | ancestorSearch m =>
        rcases hs with hs | hs
        · have hys : y.state = PeerSyncState.ancestorSearch m := by
            rw [← hs, hxs]
          have h2 := hy.2
          simp [stateNumOk, hys] at h2
          simp [stateNumOk, hxs, hb]
          exact h2
        · rw [hxs] at hs
          simp [isAncestorSearch] at hs
    | available => simp [stateNumOk, hxs]
    | downloadingNew m => simp [stateNumOk, hxs]
    | downloadingStale hh => simp [stateNumOk, hxs]
    | downloadingJustification hh => simp [stateNumOk, hxs]

theorem numInv_blockQueued {s : ChainSync} (h : Hash) (number : Nat)
    (hinv : PeerNumInv s) : PeerNumInv (s.blockQueued h number) := by
  intro e he
  have hpeers : (s.blockQueued h number).peers =
      s.peers.map (fun pp =>
        (pp.1,
          let q := pp.2
          let q := match q.state with
            | PeerSyncState.ancestorSearch _ =>
                { q with state := PeerSyncState.available }
            | _ => q
          if number ≤ q.bestNumber then { q with commonNumber := number }
          else { q with commonNumber := q.bestNumber })) := by
    by_cases hbq : s.bestQueuedNumber < number <;> simp [blockQueued, hbq]
  rw [hpeers] at he
  rcases List.mem_map.mp he with ⟨pp, hpp, hmap⟩
  have hy := hinv pp hpp
  rw [← hmap]
  cases hst : pp.2.state with
  | ancestorSearch m =>
      by_cases hle : number ≤ pp.2.bestNumber <;>
        simp [peerNumOk, stateNumOk, hst, hle] <;> omega
  | available =>
      by_cases hle : number ≤ pp.2.bestNumber <;>
        simp [peerNumOk, stateNumOk, hst, hle] <;> omega
  | downloadingNew m =>
      by_cases hle : number ≤ pp.2.bestNumber <;>
        simp [peerNumOk, stateNumOk, hst, hle] <;> omega
  | downloadingStale hh =>
      by_cases hle : number ≤ pp.2.bestNumber <;>
        simp [peerNumOk, stateNumOk, hst, hle] <;> omega
  | downloadingJustification hh =>
      by_cases hle : number ≤ pp.2.bestNumber <;>
        simp [peerNumOk, stateNumOk, hst, hle] <;> omega

theorem numInv_maintainSync {s : ChainSync} {env : Env}
    (hinv : PeerNumInv s) : PeerNumInv (s.maintainSync env).1 := by
  intro e he
  rcases mem_maintainSync_peers he with ⟨y, hy, _, hc, hb, hs⟩
  refine peerNumOk_transfer hc hb ?_ (hinv y hy)
  rcases hs with hs | hs | hs
  · exact Or.inl hs
  · rcases hs with ⟨n, hs⟩
    exact Or.inr (by simp [isAncestorSearch, hs])
  · rcases hs with ⟨hh, hs⟩
    exact Or.inr (by simp [isAncestorSearch, hs])

theorem numInv_dispatch_peers {pj : PendingJustifications}
    {peers : List (PeerId × PeerSync)} {now : Instant}
    (hinv : ∀ e ∈ peers, peerNumOk e.2) :
    ∀ e ∈ (pj.dispatch peers now).2.1, peerNumOk e.2 := by
  intro e he
  rcases PendingJustifications.mem_dispatch_peers he with ⟨y, hy, _, hc, hb, hs⟩
  refine peerNumOk_transfer hc hb ?_ (hinv y hy)
  rcases hs with hs | hs
  · exact Or.inl hs
  · rcases hs with ⟨hh, hs⟩
    exact Or.inr (by simp [isAncestorSearch, hs])

theorem mem_downloadStale_peers {s : ChainSync} {who : PeerId} {h : Hash}
    {x : PeerId × PeerSync} (hx : x ∈ (s.downloadStale who h).1.peers) :
    ∃ y ∈ s.peers, x.1 = y.1 ∧ x.2.commonNumber = y.2.commonNumber ∧
      x.2.bestNumber = y.2.bestNumber ∧
      (x.2.state = y.2.state ∨ x.2.state = PeerSyncState.downloadingStale h) := by
  have triv : x ∈ s.peers →
      ∃ y ∈ s.peers, x.1 = y.1 ∧ x.2.commonNumber = y.2.commonNumber ∧
        x.2.bestNumber = y.2.bestNumber ∧
        (x.2.state = y.2.state ∨ x.2.state = PeerSyncState.downloadingStale h) :=
    fun hm => ⟨x, hm, rfl, rfl, rfl, Or.inl rfl⟩
  cases hl : lookupA s.peers who with
  | none => exact triv (by simpa [downloadStale, hl] using hx)
  | some peer =>
      cases hst : peer.state with
      | available =>
          have h2 : x ∈ updateA s.peers who (fun p =>
              { p with state := PeerSyncState.downloadingStale h }) := by
            simpa [downloadStale, hl, hst] using hx
          rcases mem_updateA h2 with ⟨y, hy, g1, g2⟩
          refine ⟨y, hy, g1, ?_, ?_, ?_⟩
          · rcases g2 with g2 | g2 <;> rw [g2]
          · rcases g2 with g2 | g2 <;> rw [g2]
          · rcases g2 with g2 | g2
            · rw [g2]
              exact Or.inl rfl
            · rw [g2]
              exact Or.inr rfl
      | ancestorSearch m => exact triv (by simpa [downloadStale, hl, hst] using hx)
      | downloadingNew m => exact triv (by simpa [downloadStale, hl, hst] using hx)
      | downloadingStale hh => exact triv (by simpa [downloadStale, hl, hst] using hx)
      | downloadingJustification hh =>
          exact triv (by simpa [downloadStale, hl, hst] using hx)

theorem mem_downloadUnknownStale_peers {s : ChainSync} {who : PeerId} {h : Hash}
    {x : PeerId × PeerSync} (hx : x ∈ (s.downloadUnknownStale who h).1.peers) :
    ∃ y ∈ s.peers, x.1 = y.1 ∧ x.2.commonNumber = y.2.commonNumber ∧
      x.2.bestNumber = y.2.bestNumber ∧
      (x.2.state = y.2.state ∨ x.2.state = PeerSyncState.downloadingStale h) := by
  have triv : x ∈ s.peers →
      ∃ y ∈ s.peers, x.1 = y.1 ∧ x.2.commonNumber = y.2.commonNumber ∧
        x.2.bestNumber = y.2.bestNumber ∧
        (x.2.state = y.2.state ∨ x.2.state = PeerSyncState.downloadingStale h) :=
    fun hm => ⟨x, hm, rfl, rfl, rfl, Or.inl rfl⟩
  cases hl : lookupA s.peers who with
  | none => exact triv (by simpa [downloadUnknownStale, hl] using hx)
  | some peer =>
      cases hst : peer.state with
      | available =>
          have h2 : x ∈ updateA s.peers who (fun p =>
              { p with state := PeerSyncState.downloadingStale h }) := by
            simpa [downloadUnknownStale, hl, hst] using hx
          rcases mem_updateA h2 with ⟨y, hy, g1, g2⟩
          refine ⟨y, hy, g1, ?_, ?_, ?_⟩
          · rcases g2 with g2 | g2 <;> rw [g2]
          · rcases g2 with g2 | g2 <;> rw [g2]
          · rcases g2 with g2 | g2
            · rw [g2]
              exact Or.inl rfl
            · rw [g2]
              exact Or.inr rfl
      | ancestorSearch m =>
          exact triv (by simpa [downloadUnknownStale, hl, hst] using hx)
      | downloadingNew m =>
          exact triv (by simpa [downloadUnknownStale, hl, hst] using hx)
      | downloadingStale hh =>
          exact triv (by simpa [downloadUnknownStale, hl, hst] using hx)
      | downloadingJustification hh =>
          exact triv (by simpa [downloadUnknownStale, hl, hst] using hx)

theorem numInv_downloadNew {s : ChainSync} {env : Env} {who : PeerId}
    (hinv : PeerNumInv s) : PeerNumInv (s.downloadNew env who).1 := by
  intro e he
  rcases mem_downloadNew_peers he with ⟨y, hy, _, hc, hb, hs⟩
  refine peerNumOk_transfer hc hb ?_ (hinv y hy)
  rcases hs with hs | hs
  · exact Or.inl hs
  · rcases hs with ⟨n, hs⟩
    exact Or.inr (by simp [isAncestorSearch, hs])

theorem numInv_announceDecision {s1 : ChainSync} {env : Env} {who : PeerId}
    {h : Hash} {header : Header} {known knownParent : Bool}
    (hinv : PeerNumInv s1) :
    PeerNumInv (announceDecision s1 env who h header known knownParent).1 := by
  unfold announceDecision
  by_cases h1 : (!(known || s1.isAlreadyDownloading h)) = true
  · rw [if_pos (by simpa using h1)]
    by_cases h2 : header.number ≤ s1.bestQueuedNumber
    · rw [if_pos h2]
      by_cases h3 : (!(knownParent || s1.isAlreadyDownloading header.parentHash)) = true
      · rw [if_pos (by simpa using h3)]
        intro e he
        rcases mem_downloadUnknownStale_peers he with ⟨y, hy, _, hc, hb, hs⟩
        refine peerNumOk_transfer hc hb ?_ (hinv y hy)
        rcases hs with hs | hs
        · exact Or.inl hs
        · exact Or.inr (by simp [isAncestorSearch, hs])
      · rw [if_neg (by simpa using h3)]
        intro e he
        rcases mem_downloadStale_peers he with ⟨y, hy, _, hc, hb, hs⟩
        refine peerNumOk_transfer hc hb ?_ (hinv y hy)
        rcases hs with hs | hs
        · exact Or.inl hs
        · exact Or.inr (by simp [isAncestorSearch, hs])
    · rw [if_neg h2]
      exact numInv_downloadNew hinv
  · rw [if_neg (by simpa using h1)]
    exact hinv

theorem numInv_onBlockDataTail {s : ChainSync} {env : Env}
    {newBlocks : List IncomingBlock} (hinv : PeerNumInv s) :
    PeerNumInv (s.onBlockDataTail env newBlocks).1 := by
  unfold onBlockDataTail
  cases hgl : newBlocks.getLast? with
  | none =>
      simp only [hgl]
      exact numInv_maintainSync hinv
  | some b =>
      cases hbh : b.header with
      | none =>
          simp only [hgl, hbh]
          exact numInv_maintainSync hinv
      | some hd =>
          simp only [hgl, hbh]
          exact numInv_maintainSync (numInv_blockQueued _ _ hinv)

theorem numInv_updateA_available {s : ChainSync} {who : PeerId} {ps : PeerSync}
    (hl : lookupA s.peers who = some ps) (hinv : PeerNumInv s) :
    ∀ e ∈ updateA s.peers who (fun p =>
      { p with state := PeerSyncState.available }), peerNumOk e.2 := by
  intro e he
  rcases mem_updateA_lookup hl he with he | he
  · rw [he]
    have hok := hinv (who, ps) (lookupA_mem hl)
    exact ⟨hok.1, rfl⟩
  · exact hinv e he

theorem numInv_onBlockData {s : ChainSync} {env : Env} {who : PeerId}
    {request : BlockRequest} {response : List BlockData}
    (hinv : PeerNumInv s) :
    PeerNumInv (s.onBlockData env who request response).1 := by
  cases hl : lookupA s.peers who with
  | none =>
      simp only [onBlockData, hl]
      exact numInv_onBlockDataTail hinv
  | some ps =>
      have hok := hinv (who, ps) (lookupA_mem hl)
      cases hst : ps.state with
      | downloadingNew startBlock =>
          simp only [onBlockData, hl, hst]
          exact numInv_onBlockDataTail (numInv_updateA_available hl hinv)
      | downloadingStale hh =>
          simp only [onBlockData, hl, hst]
          exact numInv_onBlockDataTail (numInv_updateA_available hl hinv)
      | available =>
          simp only [onBlockData, hl, hst]
          exact numInv_onBlockDataTail hinv
      | downloadingJustification hh =>
          simp only [onBlockData, hl, hst]
          exact numInv_onBlockDataTail hinv
      | ancestorSearch n =>
          have hokn : n ≤ ps.bestNumber := by
            have h2 := hok.2
            simp [stateNumOk, hst] at h2
            exact h2
          cases hhd : (responseBlocks request response).head? with
          | none =>
              simp only [onBlockData, hl, hst, hhd]
              exact hinv
          | some b =>
              cases hch : env.clientBlockHash n with
              | error u =>
                  simp only [onBlockData, hl, hst, hhd, hch]
                  exact hinv
              | ok r =>
                  have hcont : PeerNumInv { s with
                      peers := updateA s.peers who (fun p =>
                        { p with state := PeerSyncState.ancestorSearch (n - 1) }) } := by
                    intro e he
                    rcases mem_updateA_lookup hl he with he | he
                    · rw [he]
                      refine ⟨hok.1, ?_⟩
                      simp [stateNumOk]
                      omega
                    · exact hinv e he
                  have hfound : PeerNumInv { s with
                      peers := updateA s.peers who (fun p =>
                        { p with
                            commonNumber :=
                              if p.commonNumber < n then n else p.commonNumber
                            state := PeerSyncState.available }) } := by
                    intro e he
                    rcases mem_updateA_lookup hl he with he | he
                    · rw [he]
                      refine ⟨?_, rfl⟩
                      show (if ps.commonNumber < n then n else ps.commonNumber) ≤
                        ps.bestNumber
                      have hok1 : ps.commonNumber ≤ ps.bestNumber := hok.1
                      by_cases hc : ps.commonNumber < n <;> simp [hc] <;> omega
                    · exact hinv e he
                  cases r with
                  | none =>
                      by_cases hn : 0 < n
                      · simp only [onBlockData, hl, hst, hhd, hch, hn, if_true,
                          ite_true]
                        exact hcont
                      · simp only [onBlockData, hl, hst, hhd, hch, hn,
                          Bool.false_eq_true, if_false, ite_false]
                        exact hinv
                  | some bh =>
                      by_cases hbh : bh = b.hash
                      · simp only [onBlockData, hl, hst, hhd, hch, hbh, if_true,
                          ite_true]
                        exact numInv_onBlockDataTail hfound
                      · by_cases hn : 0 < n
                        · simp only [onBlockData, hl, hst, hhd, hch, hbh, hn,
                            Bool.false_eq_true, if_false, ite_false, if_true,
                            ite_true]
                          exact hcont
                        · simp only [onBlockData, hl, hst, hhd, hch, hbh, hn,
                            Bool.false_eq_true, if_false, ite_false]
                          exact hinv

theorem numInv_onBlockJustificationData {s : ChainSync} {env : Env}
    {who : PeerId} {response : List BlockData} (hinv : PeerNumInv s) :
    PeerNumInv (s.onBlockJustificationData env who response).1 := by
  cases hl : lookupA s.peers who with
  | none =>
      simp only [onBlockJustificationData, hl]
      exact numInv_maintainSync hinv
  | some ps =>
      cases hst : ps.state with
      | downloadingJustification hh =>
          have hs1 : PeerNumInv { s with
              peers := updateA s.peers who (fun p =>
                { p with state := PeerSyncState.available }) } :=
            numInv_updateA_available hl hinv
          cases hhd : response.head? with
          | none =>
              simp only [onBlockJustificationData, hl, hst, hhd]
              exact hs1
          | some b =>
              by_cases hbh : hh ≠ b.hash
              · simp only [onBlockJustificationData, hl, hst, hhd]
                rw [if_pos hbh]
                exact hs1
              · simp only [onBlockJustificationData, hl, hst, hhd]
                rw [if_neg hbh]
                exact numInv_maintainSync hs1
      | available =>
          simp only [onBlockJustificationData, hl, hst]
          exact numInv_maintainSync hinv
      | ancestorSearch m =>
          simp only [onBlockJustificationData, hl, hst]
          exact numInv_maintainSync hinv
      | downloadingNew m =>
          simp only [onBlockJustificationData, hl, hst]
          exact numInv_maintainSync hinv
      | downloadingStale hh =>
          simp only [onBlockJustificationData, hl, hst]
          exact numInv_maintainSync hinv

theorem numInv_onBlockAnnounce {s : ChainSync} {env : Env} {who : PeerId}
    {h : Hash} {header : Header} (hinv : PeerNumInv s) :
    PeerNumInv (s.onBlockAnnounce env who h header).1 := by
  by_cases h0 : header.number ≤ 0
  · simpa [onBlockAnnounce, h0] using hinv
  · cases hl : lookupA s.peers who with
    | none => simpa [onBlockAnnounce, h0, hl] using hinv
    | some ps =>
        have hok := hinv (who, ps) (lookupA_mem hl)
        have hok1 : ps.commonNumber ≤ ps.bestNumber := hok.1
        cases hst : ps.state with
        | ancestorSearch m =>
            have hokm : m ≤ ps.bestNumber := by
              have h2 := hok.2
              simp [stateNumOk, hst] at h2
              exact h2
            by_cases hbest : ps.bestNumber < header.number
            · simp only [onBlockAnnounce, h0, if_false, hl, hst, hbest, if_true,
                ite_true]
              intro e he
              rcases mem_insertA he with he | he
              · rw [he]
                refine ⟨?_, ?_⟩
                · show ps.commonNumber ≤ header.number
                  omega
                · simp [stateNumOk]
                  omega
              · exact hinv e he
            · simp only [onBlockAnnounce, h0, if_false, hl, hst, hbest,
                Bool.false_eq_true, ite_false]
              intro e he
              rcases mem_insertA he with he | he
              · rw [he]
                refine ⟨hok1, ?_⟩
                simp [stateNumOk, hst]
                omega
              · exact hinv e he
        | available =>
            by_cases hbest : ps.bestNumber < header.number
            case pos =>
              simp only [onBlockAnnounce, h0, if_false, hl, hst, hbest, if_true,
                ite_true]
              apply numInv_announceDecision
              intro e he
              rcases mem_insertA he with he | he
              · rw [he]
                by_cases hpar : header.parentHash = s.bestQueuedHash ∨
                    isKnown env header.parentHash = true
                · simp [peerNumOk, stateNumOk, hpar]
                · by_cases hkn : isKnown env h = true <;>
                    simp [peerNumOk, stateNumOk, hpar, hkn] <;> omega
              · exact hinv e he
            case neg =>
              simp only [onBlockAnnounce, h0, if_false, hl, hst, hbest,
                Bool.false_eq_true, ite_false]
              apply numInv_announceDecision
              intro e he
              rcases mem_insertA he with he | he
              · rw [he]
                by_cases hpar : header.parentHash = s.bestQueuedHash ∨
                    isKnown env header.parentHash = true
                · simp [peerNumOk, stateNumOk, hpar]
                  omega
                · by_cases hkn : isKnown env h = true <;>
                    simp [peerNumOk, stateNumOk, hpar, hkn] <;> omega
              · exact hinv e he
        | downloadingNew m =>
            by_cases hbest : ps.bestNumber < header.number
            case pos =>
              simp only [onBlockAnnounce, h0, if_false, hl, hst, hbest, if_true,
                ite_true]
              apply numInv_announceDecision
              intro e he
              rcases mem_insertA he with he | he
              · rw [he]
                by_cases hpar : header.parentHash = s.bestQueuedHash ∨
                    isKnown env header.parentHash = true
                · simp [peerNumOk, stateNumOk, hpar]
                · by_cases hkn : isKnown env h = true <;>
                    simp [peerNumOk, stateNumOk, hpar, hkn] <;> omega
              · exact hinv e he
            case neg =>
              simp only [onBlockAnnounce, h0, if_false, hl, hst, hbest,
                Bool.false_eq_true, ite_false]
              apply numInv_announceDecision
              intro e he
              rcases mem_insertA he with he | he
              · rw [he]
                by_cases hpar : header.parentHash = s.bestQueuedHash ∨
                    isKnown env header.parentHash = true
                · simp [peerNumOk, stateNumOk, hpar]
                  omega
                · by_cases hkn : isKnown env h = true <;>
                    simp [peerNumOk, stateNumOk, hpar, hkn] <;> omega
              · exact hinv e he
        | downloadingStale hh =>
            by_cases hbest : ps.bestNumber < header.number
            case pos =>
              simp only [onBlockAnnounce, h0, if_false, hl, hst, hbest, if_true,
                ite_true]
              apply numInv_announceDecision
              intro e he
              rcases mem_insertA he with he | he
              · rw [he]
                by_cases hpar : header.parentHash = s.bestQueuedHash ∨
                    isKnown env header.parentHash = true
                · simp [peerNumOk, stateNumOk, hpar]
                · by_cases hkn : isKnown env h = true <;>
                    simp [peerNumOk, stateNumOk, hpar, hkn] <;> omega
              · exact hinv e he
            case neg =>
              simp only [onBlockAnnounce, h0, if_false, hl, hst, hbest,
                Bool.false_eq_true, ite_false]
              apply numInv_announceDecision
              intro e he
              rcases mem_insertA he with he | he
              · rw [he]
                by_cases hpar : header.parentHash = s.bestQueuedHash ∨
                    isKnown env header.parentHash = true
                · simp [peerNumOk, stateNumOk, hpar]
                  omega
                · by_cases hkn : isKnown env h = true <;>
                    simp [peerNumOk, stateNumOk, hpar, hkn] <;> omega
              · exact hinv e he
        | downloadingJustification hh =>
            by_cases hbest : ps.bestNumber < header.number
            case pos =>
              simp only [onBlockAnnounce, h0, if_false, hl, hst, hbest, if_true,
                ite_true]
              apply numInv_announceDecision
              intro e he
              rcases mem_insertA he with he | he
              · rw [he]
                by_cases hpar : header.parentHash = s.bestQueuedHash ∨
                    isKnown env header.parentHash = true
                · simp [peerNumOk, stateNumOk, hpar]
                · by_cases hkn : isKnown env h = true <;>
                    simp [peerNumOk, stateNumOk, hpar, hkn] <;> omega
              · exact hinv e he
            case neg =>
              simp only [onBlockAnnounce, h0, if_false, hl, hst, hbest,
                Bool.false_eq_true, ite_false]
              apply numInv_announceDecision
              intro e he
              rcases mem_insertA he with he | he
              · rw [he]
                by_cases hpar : header.parentHash = s.bestQueuedHash ∨
                    isKnown env header.parentHash = true
                · simp [peerNumOk, stateNumOk, hpar]
                  omega
                · by_cases hkn : isKnown env h = true <;>
                    simp [peerNumOk, stateNumOk, hpar, hkn] <;> omega
              · exact hinv e he

theorem numInv_newPeer {s : ChainSync} {env : Env} {who : PeerId}
    {info : Option (Hash × Nat)} (hinv : PeerNumInv s)
    (hyp : ∀ bh bn, info = some (bh, bn) →
      blockStatus env bh = Except.ok BlockStatus.unknown → bn ≠ 0 →
      MAJOR_SYNC_BLOCKS < env.importingCount → s.bestQueuedNumber ≤ bn) :
    PeerNumInv (s.newPeer env who info).1 := by
  cases info with
  | none => simpa [newPeer] using hinv
  | some bhn =>
      obtain ⟨bh, bn⟩ := bhn
      cases hbs : blockStatus env bh with
      | error u => simpa [newPeer, hbs] using hinv
      | ok st =>
          cases st with
          | knownBad => simpa [newPeer, hbs] using hinv
          | queued =>
              simp only [newPeer, hbs]
              intro e he
              rcases mem_insertA he with he | he
              · rw [he]
                exact ⟨Nat.le_refl _, rfl⟩
              · exact hinv e he
          | inChain =>
              simp only [newPeer, hbs]
              intro e he
              rcases mem_insertA he with he | he
              · rw [he]
                exact ⟨Nat.le_refl _, rfl⟩
              · exact hinv e he
          | unknown =>
              by_cases hz : bn = 0
              · simpa [newPeer, hbs, hz] using hinv
              · by_cases hmaj : MAJOR_SYNC_BLOCKS < env.importingCount
                · have hle : s.bestQueuedNumber ≤ bn := hyp bh bn rfl hbs hz hmaj
                  simp only [newPeer, hbs, hz, hmaj, Bool.false_eq_true,
                    if_false, ite_false, if_true, ite_true]
                  intro e he
                  rcases mem_insertA he with he | he
                  · rw [he]
                    exact ⟨hle, rfl⟩
                  · exact hinv e he
                · by_cases hbq : 0 < s.bestQueuedNumber
                  · simp only [newPeer, hbs, hz, hmaj, hbq, Bool.false_eq_true,
                      if_false, ite_false, if_true, ite_true]
                    intro e he
                    rcases mem_insertA he with he | he
                    · rw [he]
                      refine ⟨Nat.zero_le _, ?_⟩
                      simp [stateNumOk, freshPeer]
                    · exact hinv e he
                  · simp only [newPeer, hbs, hz, hmaj, hbq, Bool.false_eq_true,
                      if_false, ite_false]
                    apply numInv_downloadNew
                    intro e he
                    rcases mem_insertA he with he | he
                    · rw [he]
                      exact ⟨Nat.zero_le _, rfl⟩
                    · exact hinv e he

theorem numInv_peerDisconnected {s : ChainSync} {env : Env} {who : PeerId}
    (hinv : PeerNumInv s) : PeerNumInv (s.peerDisconnected env who).1 := by
  simp only [ChainSync.peerDisconnected]
  apply numInv_maintainSync
  intro e he
  exact hinv e (mem_eraseA he).1

theorem numInv_tick {s : ChainSync} {env : Env} (hinv : PeerNumInv s) :
    PeerNumInv (s.tick env).1 := by
  simp only [tick]
  intro e he
  exact numInv_dispatch_peers (fun x hx => hinv x hx) e he

theorem numInv_requestJustification {s : ChainSync} {h : Hash} {number : Nat}
    {env : Env} (hinv : PeerNumInv s) :
    PeerNumInv (s.requestJustification h number env).1 := by
  simp only [requestJustification]
  intro e he
  exact numInv_dispatch_peers (fun x hx => hinv x hx) e he

end ChainSync

/-! ### The claims -/

open ChainSync PendingJustifications

/-- C1: whenever the justification in-flight map (`peer_requests`) holds an
entry for a peer, that peer is connected and its state is
`DownloadingJustification` of the request's hash.  The invariant is
preserved by `maintain_sync`, `tick`, `request_justification`,
`block_finalized`, `block_queued`, `peer_disconnected`, `on_block_data`
and `on_block_announce` unconditionally; by `new_peer` provided the peer
being registered has no in-flight entry; and by
`on_block_justification_data` only when the response is non-empty and its
first hash matches the request (`goodJustResponse`) — the empty and
mismatched paths set the peer `Available` without clearing its
`peer_requests` entry.  It is not preserved by the remaining entry
points: `clear` empties the peer map without touching
`self.justifications`, and `restart` re-runs `new_peer` on every drained
peer while in-flight entries survive, so whenever an entry is in flight
each of the three leaves a stale `peer_requests` record (all three
violations are exhibited by the counterexample from one reachable
state). -/
theorem claim1_amended (s : ChainSync) (env : Env) (who : PeerId)
    (info : Option (Hash × Nat)) (request : BlockRequest)
    (response : List BlockData) (h : Hash) (header : Header) (number : Nat)
    (hinv : JustInvariant s) :
    JustInvariant (s.maintainSync env).1 ∧
    JustInvariant (s.tick env).1 ∧
    JustInvariant (s.requestJustification h number env).1 ∧
    JustInvariant (s.blockFinalized number) ∧
    JustInvariant (s.blockQueued h number) ∧
    JustInvariant (s.peerDisconnected env who).1 ∧
    JustInvariant (s.onBlockData env who request response).1 ∧
    JustInvariant (s.onBlockAnnounce env who h header).1 ∧
    ((∀ r, (who, r) ∉ s.justifications.peerRequests) →
      JustInvariant (s.newPeer env who info).1) ∧
    (goodJustResponse s who response = true →
      JustInvariant (s.onBlockJustificationData env who response).1) :=
  ⟨jinv_maintainSync hinv, jinv_tick hinv, jinv_requestJustification hinv,
   jinv_blockFinalized number hinv, jinv_blockQueued h number hinv,
   jinv_peerDisconnected hinv, jinv_onBlockData hinv,
   jinv_onBlockAnnounce hinv,
   fun hno => jinv_newPeer hinv hno,
   fun hg => jinv_onBlockJustificationData hinv hg⟩

/-- C1 witness: from the serving state the invariant holds, survives a
`block_queued` and a well-formed justification response. -/
theorem claim1_witness :
    JustInvariant sServing ∧
    goodJustResponse sServing 0
        [{ hash := 55, header := none, body := none,
           justification := some 1 }] = true ∧
    JustInvariant (sServing.onBlockJustificationData envQueued 0
        [{ hash := 55, header := none, body := none,
           justification := some 1 }]).1 ∧
    JustInvariant (sServing.blockQueued 7 60) := by
  have hc := claim1_amended sServing envQueued 0 none
    (PendingJustifications.justificationRequest 3)
    [{ hash := 55, header := none, body := none, justification := some 1 }]
    7 { number := 1, parentHash := 0 } 60 (by decide)
  exact ⟨by decide, by decide,
    hc.2.2.2.2.2.2.2.2.2 (by decide), hc.2.2.2.2.1⟩

/-- C1 counterexample: from one reachable state (fresh engine, one peer,
one dispatched justification request, so the invariant holds), three
entry points each break the state/in-flight equivalence:
`on_block_justification_data` with an empty response sets the peer
`Available` but leaves its `peer_requests` entry; `clear` removes the
peer record while the entry survives; `restart` re-registers the peer
through `new_peer` (here into a new-block download) while the entry
survives. -/
theorem claim1_counterexample :
    JustInvariant
      ((((engineAt 100).newPeer envQueued 0 (some (7, 150))).1.requestJustification
          55 50 envQueued).1) ∧
    ¬ JustInvariant
      (((((engineAt 100).newPeer envQueued 0 (some (7, 150))).1.requestJustification
          55 50 envQueued).1.onBlockJustificationData envQueued 0 []).1) ∧
    ¬ JustInvariant
      ((((engineAt 100).newPeer envQueued 0 (some (7, 150))).1.requestJustification
          55 50 envQueued).1.clear) ∧
    ¬ JustInvariant
      (((((engineAt 100).newPeer envQueued 0 (some (7, 150))).1.requestJustification
          55 50 envQueued).1.restart envQueued (Except.error ())
          (fun _ => some (7, 150))).1) := by
  decide

/-- C3: `PendingJustifications::on_response(peer, justification_opt)` with
an in-flight request `req` for that peer: on a justification accepted by
`import_justification`, `req` is removed from the set and from the
history and nothing is requeued; on a rejected justification the peer is
reported Bad and `req` is pushed to the front of the queue; on an absent
justification `(peer, now)` is appended to `history[req]` and `req` is
pushed to the front; with no in-flight request the call changes
nothing. -/
theorem claim3_on_response (pj : PendingJustifications) (who : PeerId)
    (j : Option Justification) (env : Env) :
    (lookupA pj.peerRequests who = none → pj.onResponse who j env = (pj, [])) ∧
    (∀ req, lookupA pj.peerRequests who = some req →
      (∀ jv, j = some jv → env.importJustification req.1 req.2 jv = true →
        pj.onResponse who j env =
          ({ pj with
              peerRequests := eraseA pj.peerRequests who
              justifications := pj.justifications.erase req
              previousRequests := eraseA pj.previousRequests req }, [])) ∧
      (∀ jv, j = some jv → env.importJustification req.1 req.2 jv = false →
        pj.onResponse who j env =
          ({ pj with
              peerRequests := eraseA pj.peerRequests who
              pendingRequests := req :: pj.pendingRequests },
           [Effect.reportPeer who Severity.bad])) ∧
      (j = none →
        pj.onResponse who j env =
          ({ pj with
              peerRequests := eraseA pj.peerRequests who
              previousRequests := insertA pj.previousRequests req
                ((lookupA pj.previousRequests req).getD [] ++ [(who, env.now)])
              pendingRequests := req :: pj.pendingRequests }, []))) := by
  refine ⟨fun h => by simp [onResponse, h], fun req hreq => ⟨?_, ?_, ?_⟩⟩
  · intro jv hj himp
    subst hj
    simp [onResponse, hreq, himp]
  · intro jv hj himp
    subst hj
    simp [onResponse, hreq, himp]
  · intro hj
    subst hj
    simp [onResponse, hreq]

/-- C3 witness: the absent-justification branch at a concrete state. -/
theorem claim3_witness :
    pjOne.onResponse 0 none envQueued =
      ({ pjOne with
          peerRequests := eraseA pjOne.peerRequests 0
          previousRequests := insertA pjOne.previousRequests (55, 50)
            ((lookupA pjOne.previousRequests (55, 50)).getD [] ++ [(0, envQueued.now)])
          pendingRequests := (55, 50) :: pjOne.pendingRequests }, []) :=
  ((claim3_on_response pjOne 0 none envQueued).2 (55, 50) (by decide)).2.2 rfl

/-- C2: a `dispatch` call assigns a request `r = (hash, number)` only to
an `Available` peer with no in-flight justification whose `best_number ≥
number` and which has no history entry for `r` younger than
`JUSTIFICATION_RETRY_WAIT`; on assignment the request is recorded in the
in-flight map, the peer transitions to `DownloadingJustification(hash)`,
and exactly one block request (fields = JUSTIFICATION, from = Hash(hash),
max = 1, ascending) is sent to that peer.  Consequently, after a peer
answers a justification request with `None`, a dispatch within the retry
window does not re-issue the same request to that peer. -/
theorem claim2_dispatch (pj : PendingJustifications)
    (peers : List (PeerId × PeerSync)) (now : Instant) :
    (∀ p r, (peers.map Prod.fst).Nodup →
      lookupA pj.peerRequests p = none →
      lookupA (pj.dispatch peers now).1.peerRequests p = some r →
      ∃ ps, (p, ps) ∈ peers ∧ ps.state = PeerSyncState.available ∧
        r.2 ≤ ps.bestNumber ∧
        (∀ t, (p, t) ∈ (lookupA pj.previousRequests r).getD [] →
          JUSTIFICATION_RETRY_WAIT ≤ now - t) ∧
        r ∈ pj.pendingRequests ∧
        lookupA (pj.dispatch peers now).2.1 p =
          some { ps with state := PeerSyncState.downloadingJustification r.1 } ∧
        (pj.dispatch peers now).2.2.filter
            (fun e => match e with
              | Effect.sendMessage q _ => decide (q = p)
              | _ => false) =
          [Effect.sendMessage p (PendingJustifications.justificationRequest r.1)]) ∧
    (∀ req who env now2,
      lookupA pj.peerRequests who = some req →
      now2 - env.now < JUSTIFICATION_RETRY_WAIT →
      lookupA ((pj.onResponse who none env).1.dispatch peers now2).1.peerRequests
          who ≠ some req) := by
  constructor
  · intro p r hnd hb hafter
    rcases PendingJustifications.dispatch_peerRequests_lookup hafter with
      h1 | ⟨hmem, ps, hps, hav, _, hbest, helig, hq⟩
    · rw [hb] at h1
      cases h1
    have hlook : lookupA peers p = some ps := lookupA_of_mem_nodup hnd hps
    have hcand : ((candidates pj peers).map Prod.fst).Nodup :=
      (PendingJustifications.candidates_fst_sublist pj peers).nodup hnd
    have hloop := PendingJustifications.dispatchLoop_nodup
      (g := PendingJustifications.eligible
        (PendingJustifications.purge pj.previousRequests now))
      (q := pj.pendingRequests) hcand
    have hne : ¬ pj.pendingRequests.isEmpty = true := by
      intro hc
      rw [List.isEmpty_iff] at hc
      rw [hc] at hq
      simp at hq
    refine ⟨ps, hps, hav, hbest,
      PendingJustifications.eligible_history helig, hq, ?_, ?_⟩
    · simp only [PendingJustifications.dispatch, hne, Bool.false_eq_true,
        if_false]
      exact PendingJustifications.lookupA_applyAssignments_of_mem
        hloop.1 hmem hlook
    · simp only [PendingJustifications.dispatch, hne, Bool.false_eq_true,
        if_false]
      exact PendingJustifications.filter_messages_of_mem hloop.1 hmem
  · intro req who env now2 hreq hwin hafter
    have hresp : (pj.onResponse who none env).1 =
        { pj with
            peerRequests := eraseA pj.peerRequests who
            previousRequests := insertA pj.previousRequests req
              ((lookupA pj.previousRequests req).getD [] ++ [(who, env.now)])
            pendingRequests := req :: pj.pendingRequests } := by
      rw [((claim3_on_response pj who none env).2 req hreq).2.2 rfl]
    rw [hresp] at hafter
    rcases PendingJustifications.dispatch_peerRequests_lookup hafter with
      h1 | ⟨_, ps, _, _, _, _, helig, _⟩
    · rw [lookupA_eraseA] at h1
      simp at h1
    · have hist := PendingJustifications.eligible_history helig env.now
      have hmem : (who, env.now) ∈
          (lookupA (insertA pj.previousRequests req
            ((lookupA pj.previousRequests req).getD [] ++ [(who, env.now)])) req).getD [] := by
        rw [lookupA_insertA, if_pos rfl]
        simp
      have := hist hmem
      omega

/-- C2 witness: a concrete assignment and a concrete blocked retry. -/
theorem claim2_witness :
    (∃ ps, ((0 : PeerId), ps) ∈ [(0, peerFree)] ∧
      ps.state = PeerSyncState.available ∧
      (50 : Nat) ≤ ps.bestNumber ∧
      (∀ t, ((0 : PeerId), t) ∈
          (lookupA pjPending.previousRequests (55, 50)).getD [] →
        JUSTIFICATION_RETRY_WAIT ≤ 0 - t) ∧
      ((55, 50) : Req) ∈ pjPending.pendingRequests ∧
      lookupA (pjPending.dispatch [(0, peerFree)] 0).2.1 0 =
        some { ps with state := PeerSyncState.downloadingJustification 55 } ∧
      (pjPending.dispatch [(0, peerFree)] 0).2.2.filter
          (fun e => match e with
            | Effect.sendMessage q _ => decide (q = (0 : PeerId))
            | _ => false) =
        [Effect.sendMessage 0 (PendingJustifications.justificationRequest 55)]) ∧
    lookupA ((pjOne.onResponse 0 none (envUnknown 0 0)).1.dispatch
        [(0, peerFree)] 5).1.peerRequests 0 ≠ some (55, 50) :=
  ⟨(claim2_dispatch pjPending [(0, peerFree)] 0).1 0 (55, 50)
      (by decide) (by decide) (by decide),
   (claim2_dispatch pjOne [(0, peerFree)] 5).2 (55, 50) 0 (envUnknown 0 0) 5
      (by decide) (by decide)⟩

/-- C8: while `importing_count > MAX_IMPORTING_BLOCKS`, `download_new`
emits nothing and leaves the engine unchanged; consequently
`maintain_sync` emits only justification requests and no peer enters
`DownloadingNew` that was not already in it. -/
theorem claim8_backpressure (s : ChainSync) (env : Env)
    (h : MAX_IMPORTING_BLOCKS < env.importingCount) :
    (∀ who, s.downloadNew env who = (s, [])) ∧
    (∀ e ∈ (s.maintainSync env).2, ∃ p hh,
      e = Effect.sendMessage p (PendingJustifications.justificationRequest hh)) ∧
    (∀ x ∈ (s.maintainSync env).1.peers, ∀ n,
      x.2.state = PeerSyncState.downloadingNew n →
        ∃ y ∈ s.peers, x.1 = y.1 ∧ y.2.state = PeerSyncState.downloadingNew n) := by
  have hda : downloadAll env (s.peers.map Prod.fst) s = (s, []) :=
    downloadAll_backpressure h
  refine ⟨fun who => downloadNew_skip h, ?_, ?_⟩
  · intro e he
    simp only [maintainSync, hda] at he
    rcases List.mem_append.mp he with h1 | h1
    · simp at h1
    · exact PendingJustifications.dispatch_effects e h1
  · intro x hx n hn
    simp only [maintainSync, hda] at hx
    rcases PendingJustifications.mem_dispatch_peers hx with ⟨y, hy, g1, _, _, g4⟩
    rcases g4 with g4 | ⟨hh, g4⟩
    · exact ⟨y, hy, g1, g4 ▸ hn⟩
    · rw [hn] at g4
      cases g4

/-- C8 witness at a concrete heavy-import environment. -/
theorem claim8_witness :
    sServing.downloadNew (envUnknown 3000 0) 1 = (sServing, []) :=
  (claim8_backpressure sServing (envUnknown 3000 0) (by decide)).1 1

/-- C9 (amended): after `peer_disconnected(p)`, `p` has no peer record,
no justification in-flight entry, and no block-collection assignment;
the justification request `p` was serving is pushed to the front of the
pending queue before the trailing `maintain_sync` runs, which may
immediately re-dispatch it — afterwards it is either still in the
pending queue or in flight with another peer. -/
theorem claim9_disconnect (s : ChainSync) (env : Env) (who : PeerId)
    (hnd : (s.peers.map Prod.fst).Nodup) :
    lookupA (s.peerDisconnected env who).1.peers who = none ∧
    lookupA (s.peerDisconnected env who).1.justifications.peerRequests who =
      none ∧
    lookupA (s.peerDisconnected env who).1.blocks.peerRanges who = none ∧
    (∀ req, lookupA s.justifications.peerRequests who = some req →
      (s.justifications.peerDisconnected who).pendingRequests.head? =
        some req ∧
      (req ∈ (s.peerDisconnected env who).1.justifications.pendingRequests ∨
        ∃ q, lookupA
          (s.peerDisconnected env who).1.justifications.peerRequests q =
            some req)) := by
  have hwho : who ∉ (eraseA s.peers who).map Prod.fst := by
    rw [← lookupA_eq_none_iff (β := PeerSync), lookupA_eraseA]
    simp
  have hpjnone : ∀ (pj : PendingJustifications),
      lookupA (pj.peerDisconnected who).peerRequests who = none := by
    intro pj
    cases hl : lookupA pj.peerRequests who with
    | none => simpa [PendingJustifications.peerDisconnected, hl] using hl
    | some r =>
        simp [PendingJustifications.peerDisconnected, hl, lookupA_eraseA]
  refine ⟨?_, ?_, ?_, ?_⟩
  · simp only [ChainSync.peerDisconnected]
    apply maintainSync_lookup_peers_none
    rw [lookupA_eraseA]
    simp
  · simp only [ChainSync.peerDisconnected]
    exact maintainSync_peerRequests_none (hpjnone _) hwho
  · simp only [ChainSync.peerDisconnected]
    rw [maintainSync_blocks_frame hwho]
    simp [BlockCollection.clearPeerDownload, lookupA_eraseA]
  · intro req hreq
    have hhead : (s.justifications.peerDisconnected who).pendingRequests =
        req :: s.justifications.pendingRequests := by
      simp [PendingJustifications.peerDisconnected, hreq]
    refine ⟨by rw [hhead]; rfl, ?_⟩
    simp only [ChainSync.peerDisconnected]
    apply maintainSync_pending_conserve
    · exact nodup_fst_eraseA who hnd
    · show req ∈ (s.justifications.peerDisconnected who).pendingRequests
      rw [hhead]
      exact List.mem_cons_self _ _

/-- C9 (counterexample): with a second available peer, the trailing
`maintain_sync` immediately re-dispatches the requeued justification:
after the call the pending queue is empty and the request is in flight
with peer 1, so it is not at the front of the queue as claimed. -/
theorem claim9_counterexample :
    lookupA sServing.justifications.peerRequests 0 = some (55, 50) ∧
    (sServing.peerDisconnected (envUnknown 3000 0) 0).1.justifications.pendingRequests = [] ∧
    lookupA (sServing.peerDisconnected
        (envUnknown 3000 0) 0).1.justifications.peerRequests 1 =
      some (55, 50) := by decide

/-- C9 witness: the amended statement at the same concrete state. -/
theorem claim9_witness :
    lookupA (sServing.peerDisconnected (envUnknown 3000 0) 0).1.peers 0 =
      none ∧
    ((55, 50) ∈ (sServing.peerDisconnected
        (envUnknown 3000 0) 0).1.justifications.pendingRequests ∨
      ∃ q, lookupA (sServing.peerDisconnected
          (envUnknown 3000 0) 0).1.justifications.peerRequests q =
        some (55, 50)) :=
  ⟨(claim9_disconnect sServing (envUnknown 3000 0) 0 (by decide)).1,
   ((claim9_disconnect sServing (envUnknown 3000 0) 0 (by decide)).2.2.2
      (55, 50) (by decide)).2⟩

/-- C10: `on_block_data` from a peer with no record returns
`Some (NetworkInitialSync, [])`, reports nobody, and modifies nothing
except through the trailing `maintain_sync` (whose effects are all sent
messages); it never returns `None` in this case. -/
theorem claim10_unknown_peer (s : ChainSync) (env : Env) (who : PeerId)
    (request : BlockRequest) (response : List BlockData)
    (h : lookupA s.peers who = none) :
    s.onBlockData env who request response =
      ((s.maintainSync env).1, (s.maintainSync env).2,
        some (BlockOrigin.networkInitialSync, [])) ∧
    ∀ e ∈ (s.onBlockData env who request response).2.1,
      ∃ p br, e = Effect.sendMessage p br := by
  have h1 : s.onBlockData env who request response =
      ((s.maintainSync env).1, (s.maintainSync env).2,
        some (BlockOrigin.networkInitialSync, [])) := by
    simp [onBlockData, h, onBlockDataTail]
  refine ⟨h1, ?_⟩
  rw [h1]
  exact maintainSync_effects s env

/-- C7: the ancestor-search step of `on_block_data` for a peer in
`AncestorSearch(n)`: an empty response reports Bad and yields no blocks;
a first block matching our hash at `n` raises `common_number` to
`max(common, n)` and makes the peer `Available` with an empty batch; a
mismatch (or no local block at `n`) with `n > 0` moves the search to
`n-1` and re-issues the ancestry request (HEADER|JUSTIFICATION,
from `Number(n-1)`, max 1, ascending); a mismatch at `n = 0` reports Bad
(genesis mismatch); a client read error reports Useless. -/
theorem claim7_ancestor_step (s : ChainSync) (env : Env) (who : PeerId)
    (request : BlockRequest) (response : List BlockData) (ps : PeerSync) (n : Nat)
    (hl : lookupA s.peers who = some ps)
    (hst : ps.state = PeerSyncState.ancestorSearch n) :
    (responseBlocks request response = [] →
      s.onBlockData env who request response =
        (s, [Effect.reportPeer who Severity.bad], none)) ∧
    (∀ b bs bh, responseBlocks request response = b :: bs →
      env.clientBlockHash n = Except.ok (some bh) → bh = b.hash →
      (let sFound : ChainSync := { s with peers := updateA s.peers who (fun p =>
        { p with
            commonNumber := if p.commonNumber < n then n else p.commonNumber
            state := PeerSyncState.available }) }
       s.onBlockData env who request response =
          ((sFound.maintainSync env).1, (sFound.maintainSync env).2,
            some (BlockOrigin.networkInitialSync, [])) ∧
        (lookupA sFound.peers who).map PeerSync.commonNumber =
          some (max ps.commonNumber n) ∧
        (lookupA sFound.peers who).map PeerSync.state =
          some PeerSyncState.available)) ∧
    (∀ b bs bh, responseBlocks request response = b :: bs →
      env.clientBlockHash n = Except.ok (some bh) → bh ≠ b.hash → 0 < n →
      s.onBlockData env who request response =
        ({ s with peers := updateA s.peers who (fun p =>
            { p with state := PeerSyncState.ancestorSearch (n - 1) }) },
         [Effect.sendMessage who (ancestryRequest (n - 1))], none)) ∧
    (∀ b bs, responseBlocks request response = b :: bs →
      env.clientBlockHash n = Except.ok none → 0 < n →
      s.onBlockData env who request response =
        ({ s with peers := updateA s.peers who (fun p =>
            { p with state := PeerSyncState.ancestorSearch (n - 1) }) },
         [Effect.sendMessage who (ancestryRequest (n - 1))], none)) ∧
    (∀ b bs bh, responseBlocks request response = b :: bs →
      env.clientBlockHash n = Except.ok (some bh) → bh ≠ b.hash → n = 0 →
      s.onBlockData env who request response =
        (s, [Effect.reportPeer who Severity.bad], none)) ∧
    (∀ b bs, responseBlocks request response = b :: bs →
      env.clientBlockHash n = Except.ok none → n = 0 →
      s.onBlockData env who request response =
        (s, [Effect.reportPeer who Severity.bad], none)) ∧
    (∀ b bs, responseBlocks request response = b :: bs →
      env.clientBlockHash n = Except.error () →
      s.onBlockData env who request response =
        (s, [Effect.reportPeer who Severity.useless], none)) := by
  refine ⟨?_, ?_, ?_, ?_, ?_, ?_, ?_⟩
  · intro hb
    simp [onBlockData, hl, hst, hb]
  · intro b bs bh hb hch hbh
    refine ⟨?_, ?_, ?_⟩
    · simp [onBlockData, hl, hst, hb, hch, hbh, onBlockDataTail]
    · rw [lookupA_updateA, if_pos rfl, hl]
      have hmax : (if ps.commonNumber < n then n else ps.commonNumber) =
          max ps.commonNumber n := by
        rcases Nat.lt_or_ge ps.commonNumber n with hc | hc
        · simp [hc, Nat.max_eq_right (Nat.le_of_lt hc)]
        · simp [Nat.not_lt.mpr hc, Nat.max_eq_left hc]
      simp [hmax]
    · rw [lookupA_updateA, if_pos rfl, hl]
      simp
  · intro b bs bh hb hch hbh hn
    simp [onBlockData, hl, hst, hb, hch, Ne.symm hbh, hn, fun hc => hbh hc]
  · intro b bs hb hch hn
    simp [onBlockData, hl, hst, hb, hch, hn]
  · intro b bs bh hb hch hbh hn
    subst hn
    simp [onBlockData, hl, hst, hb, hch, fun hc => hbh hc]
  · intro b bs hb hch hn
    subst hn
    simp [onBlockData, hl, hst, hb, hch]
  · intro b bs hb hch
    simp [onBlockData, hl, hst, hb, hch]

/-- C7 witness: the empty-response branch and one mismatch-continue step
at a concrete state. -/
theorem claim7_witness :
    (sSearch.onBlockData envLookup 0 (ancestryRequest 15) [] =
      (sSearch, [Effect.reportPeer 0 Severity.bad], none)) ∧
    (sSearch.onBlockData envLookup 0 (ancestryRequest 15)
        [{ hash := 55, header := none, body := none, justification := none }] =
      ({ sSearch with peers := updateA sSearch.peers 0 (fun p =>
          { p with state := PeerSyncState.ancestorSearch 14 }) },
       [Effect.sendMessage 0 (ancestryRequest 14)], none)) :=
  ⟨(claim7_ancestor_step sSearch envLookup 0 (ancestryRequest 15) []
      peerSearching 15 (by decide) (by decide)).1 rfl,
   (claim7_ancestor_step sSearch envLookup 0 (ancestryRequest 15)
      [{ hash := 55, header := none, body := none, justification := none }]
      peerSearching 15 (by decide) (by decide)).2.2.1
     { hash := 55, header := none, body := none, justification := none } [] 115
     rfl rfl (by decide) (by decide)⟩

/-- C4 (amended): the per-peer invariant `common_number ≤ best_number`
(bundled with the auxiliary bound that an ancestor search never runs
above the peer's best number) is preserved by `block_queued`,
`on_block_announce`, `on_block_data`, `on_block_justification_data`,
`peer_disconnected`, `maintain_sync`, `tick`, `request_justification`
and `block_finalized`; `new_peer` preserves it only under the proviso
that in the Unknown + major-sync branch (importing_count >
MAJOR_SYNC_BLOCKS) the engine's `best_queued_number` does not exceed the
peer's advertised best number — in that branch `common_number` is set to
`best_queued_number` regardless of the peer's tip. -/
theorem claim4_common_le_best (s : ChainSync) (env : Env)
    (hinv : PeerNumInv s) :
    (∀ e ∈ s.peers, e.2.commonNumber ≤ e.2.bestNumber) ∧
    (∀ h number, PeerNumInv (s.blockQueued h number)) ∧
    (∀ who h header, PeerNumInv (s.onBlockAnnounce env who h header).1) ∧
    (∀ who request response,
      PeerNumInv (s.onBlockData env who request response).1) ∧
    (∀ who response,
      PeerNumInv (s.onBlockJustificationData env who response).1) ∧
    (∀ who, PeerNumInv (s.peerDisconnected env who).1) ∧
    PeerNumInv (s.maintainSync env).1 ∧
    PeerNumInv (s.tick env).1 ∧
    (∀ h number, PeerNumInv (s.requestJustification h number env).1) ∧
    (∀ number, PeerNumInv (s.blockFinalized number)) ∧
    (∀ who info,
      (∀ bh bn, info = some (bh, bn) →
        blockStatus env bh = Except.ok BlockStatus.unknown → bn ≠ 0 →
        MAJOR_SYNC_BLOCKS < env.importingCount →
        s.bestQueuedNumber ≤ bn) →
      PeerNumInv (s.newPeer env who info).1) :=
  ⟨fun e he => (hinv e he).1,
   fun h number => numInv_blockQueued h number hinv,
   fun _ _ _ => numInv_onBlockAnnounce hinv,
   fun _ _ _ => numInv_onBlockData hinv,
   fun _ _ => numInv_onBlockJustificationData hinv,
   fun _ => numInv_peerDisconnected hinv,
   numInv_maintainSync hinv,
   numInv_tick hinv,
   fun _ _ => numInv_requestJustification hinv,
   fun _ e he => hinv e he,
   fun _ _ hyp => numInv_newPeer hinv hyp⟩

/-- C4 (counterexample): `new_peer` with an Unknown best hash while
`importing_count > MAJOR_SYNC_BLOCKS` inserts the peer with
`common_number = best_queued_number = 10` although the peer advertised
`best_number = 3`, violating `common_number ≤ best_number`. -/
theorem claim4_counterexample :
    lookupA ((engineAt 10).newPeer (envUnknown 6 0) 0 (some (7, 3))).1.peers 0 =
      some { commonNumber := 10, bestHash := 7, bestNumber := 3,
             state := PeerSyncState.available, recentlyAnnounced := [] } ∧
    (3 : Nat) < 10 := by decide

/-- C4 witness: preservation at a concrete state, including a `new_peer`
call satisfying the proviso. -/
theorem claim4_witness :
    PeerNumInv (sHigh.blockQueued 42 5) ∧
    PeerNumInv ((sHigh.newPeer (envUnknown 6 0) 3 (some (8, 20))).1) :=
  ⟨(claim4_common_le_best sHigh (envUnknown 6 0) (by decide)).2.1 42 5,
   (claim4_common_le_best sHigh (envUnknown 6 0)
      (by decide)).2.2.2.2.2.2.2.2.2.2 3 (some (8, 20))
     (by
        intro bh bn he hb hz hm
        cases he
        decide)⟩

/-- C5 (amended): `block_queued(hash, number)` sets every peer's
`common_number` to `min(number, best_number)` unconditionally (aborting
any ancestor search), so `common_number` is not monotonic: it drops
whenever `min(number, best_number)` is below the previous value. -/
theorem claim5_block_queued (s : ChainSync) (h : Hash) (number : Nat)
    (p : PeerId) (ps : PeerSync) (hl : lookupA s.peers p = some ps) :
    (lookupA (s.blockQueued h number).peers p).map PeerSync.commonNumber =
      some (min number ps.bestNumber) ∧
    (lookupA (s.blockQueued h number).peers p).map PeerSync.bestNumber =
      some ps.bestNumber := by
  have hpeers : (s.blockQueued h number).peers =
      (if s.bestQueuedNumber < number then
        { s with bestQueuedNumber := number, bestQueuedHash := h }
      else s).peers.map (fun pp =>
        (pp.1,
          let q := pp.2
          let q := match q.state with
            | PeerSyncState.ancestorSearch _ =>
                { q with state := PeerSyncState.available }
            | _ => q
          if number ≤ q.bestNumber then { q with commonNumber := number }
          else { q with commonNumber := q.bestNumber })) := by
    by_cases hbq : s.bestQueuedNumber < number <;> simp [blockQueued, hbq]
  have hsame : (if s.bestQueuedNumber < number then
      { s with bestQueuedNumber := number, bestQueuedHash := h }
    else s).peers = s.peers := by
    by_cases hbq : s.bestQueuedNumber < number <;> simp [hbq]
  rw [hpeers, hsame]
  revert hl
  generalize s.peers = l
  intro hl
  induction l with
  | nil => simp [lookupA] at hl
  | cons e t ih =>
      by_cases hk : e.1 = p
      · simp only [lookupA, hk, if_pos] at hl
        have he2 : e.2 = ps := by simpa using hl
        simp only [List.map_cons, lookupA, hk, if_pos]
        rw [he2]
        cases hst : ps.state with
        | ancestorSearch m =>
            by_cases hle : number ≤ ps.bestNumber <;>
              simp [hst, hle, Nat.min_def] <;> omega
        | available =>
            by_cases hle : number ≤ ps.bestNumber <;>
              simp [hst, hle, Nat.min_def] <;> omega
        | downloadingNew m =>
            by_cases hle : number ≤ ps.bestNumber <;>
              simp [hst, hle, Nat.min_def] <;> omega
        | downloadingStale hh =>
            by_cases hle : number ≤ ps.bestNumber <;>
              simp [hst, hle, Nat.min_def] <;> omega
        | downloadingJustification hh =>
            by_cases hle : number ≤ ps.bestNumber <;>
              simp [hst, hle, Nat.min_def] <;> omega
      · simp only [lookupA, hk, if_neg, if_false] at hl
        simp only [List.map_cons, lookupA, hk, if_neg, if_false]
        exact ih hl

/-- C5 (counterexample): `block_queued(42, 5)` lowers peer 0's
`common_number` from 10 to 5, refuting monotonicity of `common_number`
under `block_queued`. -/
theorem claim5_counterexample :
    (lookupA sHigh.peers 0).map PeerSync.commonNumber = some 10 ∧
    (lookupA (sHigh.blockQueued 42 5).peers 0).map PeerSync.commonNumber =
      some 5 := by decide

/-- C5 witness: the `block_queued` assignment at a concrete state. -/
theorem claim5_witness :
    (lookupA (sHigh.blockQueued 42 5).peers 0).map PeerSync.commonNumber =
      some (min 5 peerHigh.bestNumber) :=
  (claim5_block_queued sHigh 42 5 0 peerHigh (by decide)).1

/-- C6 (amended): for an announce with `number > 0` from a recorded peer
not in ancestor search, the update step assigns `common_number :=
number - 1` when the parent is the best-queued hash or known,
`common_number := number` when the hash itself is known, and leaves it
unchanged otherwise — a plain assignment, not a `max` with the previous
value. -/
theorem claim6_announce_update (s : ChainSync) (env : Env) (who : PeerId)
    (h : Hash) (header : Header) (ps : PeerSync)
    (hl : lookupA s.peers who = some ps)
    (hn : 0 < header.number)
    (has : isAncestorSearch ps.state = false) :
    (lookupA (s.onBlockAnnounce env who h header).1.peers who).map
        PeerSync.commonNumber =
      some (if header.parentHash = s.bestQueuedHash ∨
              isKnown env header.parentHash = true
            then header.number - 1
            else if isKnown env h = true then header.number
            else ps.commonNumber) := by
  have h0 : ¬ header.number ≤ 0 := by omega
  cases hst : ps.state with
  | ancestorSearch m =>
      rw [hst] at has
      simp [isAncestorSearch] at has
  | available =>
      by_cases hbest : ps.bestNumber < header.number
      all_goals
        simp only [onBlockAnnounce, h0, if_false, hl, hst, hbest, if_true,
          ite_true, ite_false, if_neg, not_false_eq_true]
      all_goals
        rw [announceDecision_common]
      all_goals
        by_cases hpar : header.parentHash = s.bestQueuedHash ∨
            isKnown env header.parentHash = true
      all_goals
        by_cases hkn : isKnown env h = true
      all_goals
        simp [lookupA_insertA, hpar, hkn, hbest]
  | downloadingNew m =>
      by_cases hbest : ps.bestNumber < header.number
      all_goals
        simp only [onBlockAnnounce, h0, if_false, hl, hst, hbest, if_true,
          ite_true, ite_false, if_neg, not_false_eq_true]
      all_goals
        rw [announceDecision_common]
      all_goals
        by_cases hpar : header.parentHash = s.bestQueuedHash ∨
            isKnown env header.parentHash = true
      all_goals
        by_cases hkn : isKnown env h = true
      all_goals
        simp [lookupA_insertA, hpar, hkn, hbest]
  | downloadingStale hh =>
      by_cases hbest : ps.bestNumber < header.number
      all_goals
        simp only [onBlockAnnounce, h0, if_false, hl, hst, hbest, if_true,
          ite_true, ite_false, if_neg, not_false_eq_true]
      all_goals
        rw [announceDecision_common]
      all_goals
        by_cases hpar : header.parentHash = s.bestQueuedHash ∨
            isKnown env header.parentHash = true
      all_goals
        by_cases hkn : isKnown env h = true
      all_goals
        simp [lookupA_insertA, hpar, hkn, hbest]
  | downloadingJustification hh =>
      by_cases hbest : ps.bestNumber < header.number
      all_goals
        simp only [onBlockAnnounce, h0, if_false, hl, hst, hbest, if_true,
          ite_true, ite_false, if_neg, not_false_eq_true]
      all_goals
        rw [announceDecision_common]
      all_goals
        by_cases hpar : header.parentHash = s.bestQueuedHash ∨
            isKnown env header.parentHash = true
      all_goals
        by_cases hkn : isKnown env h = true
      all_goals
        simp [lookupA_insertA, hpar, hkn, hbest]

/-- C6 (counterexample): an announce of `(123, 5)` with a known parent
sets peer 0's `common_number` to 4 although it was 10; the claimed
`max(common_number, number-1)` would have kept 10. -/
theorem claim6_counterexample :
    (lookupA sHigh.peers 0).map PeerSync.commonNumber = some 10 ∧
    (lookupA (sHigh.onBlockAnnounce (envInChain 0) 0 123
        { parentHash := 9, number := 5 }).1.peers 0).map
        PeerSync.commonNumber = some 4 := by decide

/-- C6 witness: the known-parent assignment at a concrete state. -/
theorem claim6_witness :
    (lookupA (sHigh.onBlockAnnounce (envInChain 0) 0 123
        { parentHash := 9, number := 5 }).1.peers 0).map
        PeerSync.commonNumber =
      some (if (9 : Hash) = sHigh.bestQueuedHash ∨
              isKnown (envInChain 0) 9 = true
            then 4
            else if isKnown (envInChain 0) 123 = true then 5
            else peerHigh.commonNumber) :=
  claim6_announce_update sHigh (envInChain 0) 0 123
    { parentHash := 9, number := 5 } peerHigh (by decide) (by decide) (by decide)

/-- C10 witness: a response from an unrecorded peer at a concrete
state. -/
theorem claim10_witness :
    sHigh.onBlockData envQueued 7 (PendingJustifications.justificationRequest 3)
        [] =
      ((sHigh.maintainSync envQueued).1, (sHigh.maintainSync envQueued).2,
        some (BlockOrigin.networkInitialSync, [])) :=
  (claim10_unknown_peer sHigh envQueued 7
    (PendingJustifications.justificationRequest 3) [] (by decide)).1

end Sync
